import Mathlib

/-!
Verification development for the name-registration mempool overlay of the
soitun/xaya repository.

Part A embeds the name-mempool core (operation extraction, slot index,
chain resolver, admission policy, consistency diagnostic, conflict
eviction).  The implementation of this core is not part of the given
source tree (only its unit tests `src/test/name_mempool_tests.cpp` are),
so every definition in Part A is modelled from the design document
(`spec.md`), faithful to its words, and cross-checked against the
observable behaviour exercised by the unit tests.

Part B embeds the wallet RPC logic of `src/wallet/rpcnames.cpp`
(`name_update` pending-update guard and input selection, and the
`name_list` per-name selection loop), translated from that source file.
-/

namespace Xaya

/-- Names are immutable opaque byte sequences (`valtype` in the source);
equality is byte-exact.  Bytes are modelled as naturals. -/
abbrev Name := List Nat

/-- Values attached to names: opaque byte sequences. -/
abbrev Value := List Nat

/-- Transaction identifier.  In the source this is the 256-bit hash of the
transaction; the model carries an explicit identifier instead. -/
abbrev TxId := Nat

/-- A reference to one output of one transaction (`COutPoint`). -/
structure Outpoint where
  txid : TxId
  n : Nat
deriving DecidableEq

/-- Modelled from the spec: output scripts, abstracted to the closed tagged
classification the Operation Extractor needs — a script either carries no
name operation, or is a name-register script, or a name-update script
(`CNameScript::buildNameRegister` / `buildNameUpdate` in the tests). -/
inductive Script where
  | plain
  | nameRegisterScript (name : Name) (value : Value)
  | nameUpdateScript (name : Name) (value : Value)
deriving DecidableEq

/-- True exactly on the name-carrying scripts (`CNameScript::isNameOp`). -/
def Script.isNameScript : Script → Bool
  | Script.plain => false
  | Script.nameRegisterScript _ _ => true
  | Script.nameUpdateScript _ _ => true

/-- A transaction as this core sees it: an identifier, the declared inputs
(outpoints it consumes) and the outputs (scripts, for locating a
name-carrying output). -/
structure Transaction where
  txid : TxId
  inputs : List Outpoint
  outputs : List Script
deriving DecidableEq

/-- Modelled from the spec: the `NameOperation` tagged variant —
`None`, `Registration{name, value, outputIndex}` or
`Update{name, value, outputIndex}`. -/
inductive NameOperation where
  | noneOp
  | registrationOp (name : Name) (value : Value) (outIdx : Nat)
  | updateOp (name : Name) (value : Value) (outIdx : Nat)
deriving DecidableEq

/-- Modelled from the spec: the Operation Extractor.  Scans the outputs for
name-carrying scripts; exactly one qualifying output yields
`Registration`/`Update` per its script type, zero or two-plus yield `None`
(the index degrades gracefully instead of assuming upstream validity). -/
def extract (tx : Transaction) : NameOperation :=
  match tx.outputs.enum.filter (fun p => Script.isNameScript p.2) with
  | [(i, Script.nameRegisterScript n v)] => NameOperation.registrationOp n v i
  | [(i, Script.nameUpdateScript n v)] => NameOperation.updateOp n v i
  | _ => NameOperation.noneOp

/-- Name targeted by an operation, if any. -/
def NameOperation.opName : NameOperation → Option Name
  | NameOperation.noneOp => Option.none
  | NameOperation.registrationOp n _ _ => some n
  | NameOperation.updateOp n _ _ => some n

/-- Outpoint of the transaction's own name-carrying output, if it has one. -/
def nameOutpoint (tx : Transaction) : Option Outpoint :=
  match extract tx with
  | NameOperation.noneOp => Option.none
  | NameOperation.registrationOp _ _ i => some ⟨tx.txid, i⟩
  | NameOperation.updateOp _ _ i => some ⟨tx.txid, i⟩

/-- True when the transaction's extracted operation registers `n`. -/
def entryRegisters (tx : Transaction) (n : Name) : Bool :=
  match extract tx with
  | NameOperation.registrationOp m _ _ => decide (m = n)
  | _ => false

/-- True when the transaction's extracted operation updates `n`. -/
def entryUpdates (tx : Transaction) (n : Name) : Bool :=
  match extract tx with
  | NameOperation.updateOp m _ _ => decide (m = n)
  | _ => false

/-- One slot mapping of the Slot Index: `Name → TransactionId`, represented
as an association list. -/
abbrev SlotMap := List (Name × TxId)

/-- Slot lookup: first binding for the name, if any. -/
def lookupSlot : SlotMap → Name → Option TxId
  | [], _ => Option.none
  | p :: rest, n => if p.1 = n then some p.2 else lookupSlot rest n

/-- Modelled from the spec: `occupy(name, kind, txid)` unconditionally sets
the mapping for the name to the txid (trusted path; silently overwrites an
existing occupant). -/
def slotOccupy (slots : SlotMap) (n : Name) (t : TxId) : SlotMap :=
  (n, t) :: slots.filter (fun p => !(decide (p.1 = n)))

/-- Modelled from the spec: `release(name, kind, txid)` clears the mapping
iff the current occupant equals the txid; no-op otherwise. -/
def slotRelease (slots : SlotMap) (n : Name) (t : TxId) : SlotMap :=
  match lookupSlot slots n with
  | Option.none => slots
  | some cur =>
      if cur = t then slots.filter (fun p => !(decide (p.1 = n))) else slots

/-- Modelled from the spec: the name-mempool overlay state — the current
pool entries (in admission order) plus the two slot mappings
(`mapNameRegs` / `mapNameUpdates` in the tests). -/
structure NameMemPool where
  entries : List Transaction
  regSlot : SlotMap
  updSlot : SlotMap
deriving DecidableEq

/-- The empty pool. -/
def emptyPool : NameMemPool := ⟨[], [], []⟩

/-- Is the registration slot for the name occupied
(`CNameMemPool::registersName`)? -/
def isRegistered (pool : NameMemPool) (n : Name) : Bool :=
  (lookupSlot pool.regSlot n).isSome

/-- Is the update slot for the name occupied
(`CNameMemPool::updatesName`)? -/
def isUpdated (pool : NameMemPool) (n : Name) : Bool :=
  (lookupSlot pool.updSlot n).isSome

/-- Modelled from the spec: the trusted `add` path
(`CTxMemPool::addUnchecked`).  Appends the entry and folds its operation
into the Slot Index via `occupy`. -/
def addUnchecked (pool : NameMemPool) (tx : Transaction) : NameMemPool :=
  match extract tx with
  | NameOperation.noneOp => { pool with entries := pool.entries ++ [tx] }
  | NameOperation.registrationOp n _ _ =>
      { entries := pool.entries ++ [tx]
        regSlot := slotOccupy pool.regSlot n tx.txid
        updSlot := pool.updSlot }
  | NameOperation.updateOp n _ _ =>
      { entries := pool.entries ++ [tx]
        regSlot := pool.regSlot
        updSlot := slotOccupy pool.updSlot n tx.txid }

/-- Modelled from the spec: the trusted `remove` path for a single entry.
Drops the entry and calls `release` for its operation's slot. -/
def removeTx (pool : NameMemPool) (tx : Transaction) : NameMemPool :=
  let keep := pool.entries.filter (fun e => !(decide (e.txid = tx.txid)))
  match extract tx with
  | NameOperation.noneOp => { pool with entries := keep }
  | NameOperation.registrationOp n _ _ =>
      { entries := keep
        regSlot := slotRelease pool.regSlot n tx.txid
        updSlot := pool.updSlot }
  | NameOperation.updateOp n _ _ =>
      { entries := keep
        regSlot := pool.regSlot
        updSlot := slotRelease pool.updSlot n tx.txid }

/-- Does the transaction spend the given outpoint? -/
def spends (tx : Transaction) (o : Outpoint) : Bool :=
  decide (o ∈ tx.inputs)

/-- First pool entry with the given txid, if present. -/
def findEntry : List Transaction → TxId → Option Transaction
  | [], _ => Option.none
  | e :: rest, t => if e.txid = t then some e else findEntry rest t

/-- Modelled from the spec: one step of the Chain Resolver.  Scans pooled
entries for the unique one whose declared inputs spend the candidate's own
name-carrying output and whose own operation targets the same name; an
ambiguous continuation (two-plus spenders of that outpoint) is never
followed. -/
def chainStep (entries : List Transaction) (nm : Name) (c : Transaction) :
    Option Transaction :=
  match nameOutpoint c with
  | Option.none => Option.none
  | some outp =>
      match entries.filter (fun e => spends e outp) with
      | [e] => if NameOperation.opName (extract e) = some nm then some e
               else Option.none
      | _ => Option.none

/-- Modelled from the spec: the Chain Resolver's walk, with explicit fuel
(one unit per pooled entry suffices). -/
def chainWalk (entries : List Transaction) (nm : Name) :
    Nat → Transaction → Transaction
  | 0, c => c
  | fuel + 1, c =>
      match chainStep entries nm c with
      | Option.none => c
      | some e => chainWalk entries nm fuel e

/-- Modelled from the spec: starting candidate for the Chain Resolver —
the update-slot occupant when that slot is occupied, else the
registration-slot occupant (update slot wins on the tie). -/
def startCandidate (pool : NameMemPool) (nm : Name) : Option Transaction :=
  match lookupSlot pool.updSlot nm with
  | some t => findEntry pool.entries t
  | Option.none =>
      match lookupSlot pool.regSlot nm with
      | some t => findEntry pool.entries t
      | Option.none => Option.none

/-- Modelled from the spec: `lastNameOutput(name)` — walk the chain of
pooled continuations from the slot occupant and return the final
candidate's name-carrying outpoint; `Option.none` is the NotFound result. -/
def lastNameOutput (pool : NameMemPool) (nm : Name) : Option Outpoint :=
  match startCandidate pool nm with
  | Option.none => Option.none
  | some c => nameOutpoint (chainWalk pool.entries nm pool.entries.length c)

/-- Modelled from the spec: the Admission Policy `checkNameOps`.
`None` operations are accepted; a registration is accepted iff the
registration slot is unoccupied; an update is accepted when neither slot is
occupied, and otherwise iff the candidate's declared inputs spend exactly
`lastNameOutput(name)`. -/
def checkNameOps (pool : NameMemPool) (tx : Transaction) : Bool :=
  match extract tx with
  | NameOperation.noneOp => true
  | NameOperation.registrationOp n _ _ => !(isRegistered pool n)
  | NameOperation.updateOp n _ _ =>
      if !(isRegistered pool n) && !(isUpdated pool n) then true
      else
        match lastNameOutput pool n with
        | some outp => decide (outp ∈ tx.inputs)
        | Option.none => false

/-- Internal coherence of the Slot Index: every occupied slot references a
transaction that is actually present in the pool with the matching
operation kind and name (the first bullet of the spec's `checkNames`). -/
def slotIndexCoherent (pool : NameMemPool) : Bool :=
  pool.regSlot.all (fun p =>
    pool.entries.any (fun e => decide (e.txid = p.2) && entryRegisters e p.1)) &&
  pool.updSlot.all (fun p =>
    pool.entries.any (fun e => decide (e.txid = p.2) && entryUpdates e p.1))

/-- Well-formedness of a pool state, as maintained by the trusted add and
remove lifecycle: entry identifiers are pairwise distinct and the Slot
Index is internally coherent. -/
def nmpWf (pool : NameMemPool) : Prop :=
  (pool.entries.map Transaction.txid).Nodup ∧ slotIndexCoherent pool = true

instance (pool : NameMemPool) : Decidable (nmpWf pool) := by
  unfold nmpWf; infer_instance

/-- The last confirmed data of a name in the confirmed chain-state
collaborator (`CNameData`): its value and last update outpoint. -/
structure NameData where
  value : Value
  updOutpoint : Outpoint
deriving DecidableEq

/-- The confirmed chain-state view, read-only to this core: an association
list from names to their confirmed records. -/
abbrev ChainState := List (Name × NameData)

/-- Confirmed-state lookup (`CCoinsView::GetName`). -/
def lookupName : ChainState → Name → Option NameData
  | [], _ => Option.none
  | p :: rest, n => if p.1 = n then some p.2 else lookupName rest n

/-- Modelled from the spec: the Consistency Diagnostic `checkNames`.
Verifies that the Slot Index is internally coherent and that every pooled
`Update` operation's name is known — present in the confirmed view or
currently occupying the registration slot.  `true` means the pool passes
(is not flagged as inconsistent). -/
def checkNames (view : ChainState) (pool : NameMemPool) : Bool :=
  slotIndexCoherent pool &&
  pool.entries.all (fun e =>
    match extract e with
    | NameOperation.updateOp n _ _ =>
        (lookupName view n).isSome || isRegistered pool n
    | _ => true)

/-- Does the transaction directly spend an output of a transaction in the
given identifier set? -/
def txDependsOn (rem : List TxId) (t : Transaction) : Bool :=
  t.inputs.any (fun i => decide (i.txid ∈ rem))

/-- Identifiers of the pooled entries newly marked by one closure step:
those not yet marked that directly spend an output of a marked one. -/
def closureAdds (entries : List Transaction) (rem : List TxId) : List TxId :=
  (entries.filter
    (fun t => !(decide (t.txid ∈ rem)) && txDependsOn rem t)).map Transaction.txid

/-- One step of the downward dependency closure: adjoin every pooled entry
that directly spends an output of an already-marked transaction. -/
def closureStep (entries : List Transaction) (rem : List TxId) : List TxId :=
  rem ++ closureAdds entries rem

/-- Iterate the closure step a fixed number of times. -/
def closureIter (entries : List Transaction) : Nat → List TxId → List TxId
  | 0, rem => rem
  | fuel + 1, rem => closureIter entries fuel (closureStep entries rem)

/-- Transitive dependency closure of a seed set inside the pool: the seeds
together with everything in the pool depending on them, directly or
recursively.  `entries.length` iterations always reach the fixpoint. -/
def depClosure (entries : List Transaction) (seeds : List TxId) : List TxId :=
  closureIter entries entries.length seeds

/-- Modelled from the spec: ancestry in the pooled dependency graph — the
transaction `tx` descends from the transaction with identifier `a` through
declared inputs, resolving intermediate steps through pooled entries. -/
def isAncestorFuel (entries : List Transaction) (a : TxId) :
    Nat → Transaction → Bool
  | 0, _ => false
  | fuel + 1, tx =>
      tx.inputs.any (fun i =>
        decide (i.txid = a) ||
        match findEntry entries i.txid with
        | some e => isAncestorFuel entries a fuel e
        | Option.none => false)

/-- Is the transaction with identifier `a` an ancestor of `tx`? -/
def isAncestor (entries : List Transaction) (a : TxId) (tx : Transaction) :
    Bool :=
  isAncestorFuel entries a (entries.length + 1) tx

/-- Release the registration slot held by a removed entry, if any. -/
def releaseReg (slots : SlotMap) (e : Transaction) : SlotMap :=
  match extract e with
  | NameOperation.registrationOp n _ _ => slotRelease slots n e.txid
  | _ => slots

/-- Release the update slot held by a removed entry, if any. -/
def releaseUpd (slots : SlotMap) (e : Transaction) : SlotMap :=
  match extract e with
  | NameOperation.updateOp n _ _ => slotRelease slots n e.txid
  | _ => slots

/-- Remove a marked identifier set from the pool: drop the marked entries
(in pool order), release their slots, and return the new pool together
with the removed transactions in removal order — the sequence a
`CNameConflictTracker` scoped around the call records. -/
def removeSet (pool : NameMemPool) (rem : List TxId) :
    NameMemPool × List Transaction :=
  let removed := pool.entries.filter (fun e => decide (e.txid ∈ rem))
  let keep := pool.entries.filter (fun e => !(decide (e.txid ∈ rem)))
  (⟨keep, removed.foldl releaseReg pool.regSlot,
    removed.foldl releaseUpd pool.updSlot⟩, removed)

/-- Modelled from the spec: the Conflict Evictor `removeConflicts`.  For
the name targeted by the confirming transaction, every pooled occupant of
that name's registration or update slot that is not an ancestor of the
confirming transaction is removed, together with (recursively) everything
in the pool depending on it; the removed transactions are returned in
removal order (the `CNameConflictTracker` record). -/
def removeConflicts (pool : NameMemPool) (ctx : Transaction) :
    NameMemPool × List Transaction :=
  match NameOperation.opName (extract ctx) with
  | Option.none => (pool, [])
  | some nm =>
      let occ := (lookupSlot pool.regSlot nm).toList ++
                 (lookupSlot pool.updSlot nm).toList
      let seeds := occ.filter (fun t => !(isAncestor pool.entries t ctx))
      removeSet pool (depClosure pool.entries seeds)

/-!
Part B: the wallet RPC logic of `src/wallet/rpcnames.cpp`.
-/

/-- RPC error classes thrown by `name_update` before any transaction is
constructed (`JSONRPCError` calls in `rpcnames.cpp`). -/
inductive RpcError where
  | invalidParameter
  | pendingUpdate
  | nameNotFound
deriving DecidableEq

deriving instance DecidableEq for Except

/-- Decision logic of the `name_update` RPC (`rpcnames.cpp`, the checks
before `SendNameOutput`): reject an invalid name or value, reject when the
mempool already has a pending update for the name, reject when the name
has no confirmed record; otherwise proceed to build a transaction whose
name input is the confirmed record's update outpoint.  The wallet
machinery of `SendNameOutput` is abstracted to its one relevant effect:
`Except.ok outp` means a transaction is built spending `outp` as its name
input (`nameInput = &txIn` with `txIn = CTxIn(outp)`).  Name and value
validity (`IsNameValid` / `IsValueValid`, implemented outside this source
tree) are passed in as parameters. -/
def nameUpdateRpc (pool : NameMemPool) (view : ChainState) (nm : Name)
    (nameValid valueValid : Bool) : Except RpcError Outpoint :=
  if !nameValid then Except.error RpcError.invalidParameter
  else if !valueValid then Except.error RpcError.invalidParameter
  else if isUpdated pool nm then Except.error RpcError.pendingUpdate
  else
    match lookupName view nm with
    | Option.none => Except.error RpcError.nameNotFound
    | some oldData => Except.ok oldData.updOutpoint

/-- A wallet transaction as the `name_list` loop sees it: its identifier,
its outputs and its confirmation depth in the main chain
(`CWalletTx::GetDepthInMainChain`). -/
structure WalletTx where
  wtxid : TxId
  outputs : List Script
  depth : Int
deriving DecidableEq

/-- The first name-carrying output of a transaction, with its index: the
`name_list` loop keeps only the first (`nOut`) and skips — with a logged
error — any further name outputs of the same transaction. -/
def firstNameOut (outs : List Script) : Option (Nat × Script) :=
  (outs.enum.filter (fun p => Script.isNameScript p.2)).head?

/-- Name carried by a name script. -/
def Script.scriptName : Script → Option Name
  | Script.plain => Option.none
  | Script.nameRegisterScript n _ => some n
  | Script.nameUpdateScript n _ => some n

/-- Value carried by a name script. -/
def Script.scriptValue : Script → Option Value
  | Script.plain => Option.none
  | Script.nameRegisterScript _ v => some v
  | Script.nameUpdateScript _ v => some v

/-- Does the name script set the name's data (`CNameScript::isAnyUpdate`)?
In this chain both the register and the update operation carry a value and
update the name database, so both qualify. -/
def Script.isAnyUpdate : Script → Bool
  | Script.plain => false
  | Script.nameRegisterScript _ _ => true
  | Script.nameUpdateScript _ _ => true

/-- The `name_list` name filter: skip the row when an explicit name filter
is present and differs from the row's name
(`!nameFilter.empty () && nameFilter != name` in the source, with the
absent filter modelled as `Option.none`). -/
def filterSkips (filt : Option Name) (n : Name) : Bool :=
  match filt with
  | some f => decide (f ≠ n)
  | Option.none => false

/-- One reported `name_list` row: the name, its value, the name outpoint
and the confirmed height of the reporting transaction. -/
structure NameListRow where
  name : Name
  value : Value
  outp : Outpoint
  height : Int
deriving DecidableEq

/-- Result-map lookup, keyed by name. -/
def lookupRow : List (Name × NameListRow) → Name → Option NameListRow
  | [], _ => Option.none
  | p :: rest, n => if p.1 = n then some p.2 else lookupRow rest n

/-- Insert-or-overwrite into the per-name result map.  The source keeps two
parallel maps `mapHeights` and `mapObjects` keyed by name and updated
together; the model merges them into one association list. -/
def rowInsert (m : List (Name × NameListRow)) (n : Name) (row : NameListRow) :
    List (Name × NameListRow) :=
  (n, row) :: m.filter (fun p => !(decide (p.1 = n)))

/-- One iteration of the `name_list` wallet loop (`rpcnames.cpp`,
`name_list`): locate the first name output, require a data-setting
operation, apply the name filter, skip unconfirmed transactions
(depth at most zero), and keep the entry unless a strictly greater height
is already recorded for the name. -/
def nameListStep (tipHeight : Int) (filt : Option Name)
    (acc : List (Name × NameListRow)) (wtx : WalletTx) :
    List (Name × NameListRow) :=
  match firstNameOut wtx.outputs with
  | Option.none => acc
  | some (i, s) =>
      if !(Script.isAnyUpdate s) then acc
      else
        match Script.scriptName s, Script.scriptValue s with
        | some n, some v =>
            if filterSkips filt n then acc
            else if wtx.depth ≤ 0 then acc
            else
              let height := tipHeight - wtx.depth + 1
              match (lookupRow acc n).map NameListRow.height with
              | some h => if h > height then acc
                          else rowInsert acc n ⟨n, v, ⟨wtx.wtxid, i⟩, height⟩
              | Option.none => rowInsert acc n ⟨n, v, ⟨wtx.wtxid, i⟩, height⟩
        | _, _ => acc

/-- The `name_list` RPC's per-name selection over the wallet's
transactions, in wallet-map iteration order. -/
def nameListRpc (tipHeight : Int) (filt : Option Name)
    (wtxs : List WalletTx) : List (Name × NameListRow) :=
  wtxs.foldl (nameListStep tipHeight filt) []

/-- Does a wallet transaction offer a candidate `name_list` row for name
`n` under filter `filt`?  Its first name output must be a data-setting
operation on `n`, the filter must pass, and the transaction must be
confirmed (positive depth). -/
def qualifiesB (filt : Option Name) (n : Name) (w : WalletTx) : Bool :=
  match firstNameOut w.outputs with
  | Option.none => false
  | some (_, s) =>
      Script.isAnyUpdate s &&
      (match Script.scriptName s with
       | some m => decide (m = n)
       | Option.none => false) &&
      !(filterSkips filt n) &&
      decide (w.depth > 0)

/-- Invariant of the `name_list` wallet loop after processing a prefix of
the wallet's transactions: result keys are distinct, each key looks up its
own row, each row comes from a processed qualifying transaction's first
name output, each row's height dominates every processed qualifying
transaction of its name, and every processed qualifying transaction's
name is present in the result. -/
def nameListInv (tip : Int) (filt : Option Name)
    (processed : List WalletTx) (acc : List (Name × NameListRow)) : Prop :=
  ((acc.map Prod.fst).Nodup) ∧
  (∀ p ∈ acc, lookupRow acc p.1 = some p.2) ∧
  (∀ p ∈ acc, ∃ w ∈ processed, qualifiesB filt p.1 w = true ∧
      ∃ i s, firstNameOut w.outputs = some (i, s) ∧
        Script.scriptName s = some p.1 ∧
        Script.scriptValue s = some p.2.value ∧
        p.2.name = p.1 ∧ p.2.outp = ⟨w.wtxid, i⟩ ∧
        p.2.height = tip - w.depth + 1) ∧
  (∀ p ∈ acc, ∀ w ∈ processed, qualifiesB filt p.1 w = true →
      tip - w.depth + 1 ≤ p.2.height) ∧
  (∀ w ∈ processed, ∀ n, qualifiesB filt n w = true →
      ∃ r, lookupRow acc n = some r)

/-- A confirmed wallet transaction updating name `[1]` at depth 5. -/
def wA : WalletTx := ⟨1, [Script.nameUpdateScript [1] [7]], 5⟩

/-- A confirmed wallet transaction updating name `[1]` at depth 2 — a
greater height than `wA`. -/
def wB : WalletTx := ⟨2, [Script.plain, Script.nameUpdateScript [1] [8]], 2⟩

/-!
Concrete scenarios, mirroring the unit tests of
`src/test/name_mempool_tests.cpp`.
-/

/-- A registration of name `[1]` (test name "foo", first registration). -/
def fooReg1 : Transaction := ⟨1, [], [Script.nameRegisterScript [1] [10]]⟩

/-- An independent second registration of name `[1]`. -/
def fooReg2 : Transaction := ⟨2, [], [Script.nameRegisterScript [1] [11]]⟩

/-- Pool holding exactly the first registration of `[1]`. -/
def fooPool : NameMemPool := addUnchecked emptyPool fooReg1

/-- T1 of the chained-update scenario: registers name `[2]` at output 0. -/
def chainT1 : Transaction :=
  ⟨1, [], [Script.nameRegisterScript [2] [1], Script.plain, Script.plain]⟩

/-- T2: spends T1's output 0 and updates name `[2]` at output 1. -/
def chainT2 : Transaction :=
  ⟨2, [⟨1, 0⟩], [Script.plain, Script.nameUpdateScript [2] [2]]⟩

/-- T3: spends T2's output 1 and updates name `[2]` at output 1. -/
def chainT3 : Transaction :=
  ⟨3, [⟨2, 1⟩], [Script.plain, Script.nameUpdateScript [2] [3]]⟩

/-- Pool after admitting T1, T2 and T3 in order. -/
def chainPool : NameMemPool :=
  addUnchecked (addUnchecked (addUnchecked emptyPool chainT1) chainT2) chainT3

/-- An unconfirmed registration of name `[3]` at output 0. -/
def regN : Transaction := ⟨1, [], [Script.nameRegisterScript [3] [1]]⟩

/-- A chained unconfirmed update of name `[3]`, spending the
registration's name output. -/
def updN : Transaction := ⟨2, [⟨1, 0⟩], [Script.nameUpdateScript [3] [2]]⟩

/-- Pool holding the unconfirmed registration of `[3]` and the chained
unconfirmed update of the same name. -/
def chainedRegUpdPool : NameMemPool :=
  addUnchecked (addUnchecked emptyPool regN) updN

/-- A pool state with a dangling registration slot: the slot for name `[0]`
names transaction 1, but the pool holds no entries at all. -/
def danglingSlotPool : NameMemPool := ⟨[], [([0], 1)], []⟩

/-- A dependent of `fooReg1`: a plain currency transaction spending the
registration's output. -/
def fooChild : Transaction := ⟨7, [⟨1, 0⟩], []⟩

/-- Pool holding the registration of `[1]` and a dependent spending it. -/
def fooPool2 : NameMemPool := addUnchecked fooPool fooChild

/-- A malformed transaction with four name-carrying outputs (two
registrations and two updates), mirroring the `invalid_tx` unit test. -/
def invalidTx : Transaction :=
  ⟨9, [], [Script.nameRegisterScript [1] [10], Script.nameRegisterScript [4] [10],
           Script.nameUpdateScript [1] [10], Script.nameUpdateScript [4] [10]]⟩

/-- A further chained update of name `[2]`, spending T3's name output. -/
def updTx4 : Transaction := ⟨4, [⟨3, 1⟩], [Script.nameUpdateScript [2] [4]]⟩

/-!
Theorems.  Helper lemmas come first; the claim theorems and their
witnesses close the file section by section.
-/

/-- Looking a name up after filtering out all bindings of another name:
bindings of the filtered name are gone, all others are untouched. -/
theorem lookupSlot_filterOut (slots : SlotMap) (n m : Name) :
    lookupSlot (slots.filter (fun p => !(decide (p.1 = n)))) m =
      if m = n then Option.none else lookupSlot slots m := by
  induction slots with
  | nil => simp [lookupSlot]
  | cons p rest ih =>
    by_cases hm : m = n
    · subst hm
      by_cases hp : p.1 = m
      · simp [List.filter_cons, hp, ih]
      · simp [List.filter_cons, hp, lookupSlot, ih]
    · by_cases hp : p.1 = n
      · have hpm : ¬(p.1 = m) := fun h => hm (by rw [← h]; exact hp)
        simp [List.filter_cons, hp, lookupSlot, ih, hm, hpm,
          show ¬(n = m) from fun h => hm h.symm]
      · simp [List.filter_cons, hp, lookupSlot, ih, hm]

/-- Characterization of `release`: the mapping for `q` is cleared exactly
when `q` is the released name and its current occupant is the released
transaction; every other lookup is untouched. -/
theorem lookupSlot_slotRelease (slots : SlotMap) (m : Name) (t : TxId)
    (q : Name) :
    lookupSlot (slotRelease slots m t) q =
      if q = m ∧ lookupSlot slots m = some t then Option.none
      else lookupSlot slots q := by
  cases hm : lookupSlot slots m with
  | none => simp [slotRelease, hm]
  | some cur =>
    by_cases hct : cur = t
    · subst hct
      simp [slotRelease, hm, lookupSlot_filterOut]
    · simp [slotRelease, hm, hct]

/-- Characterization of `occupy`: the occupied name now maps to the new
occupant, every other lookup is untouched. -/
theorem lookupSlot_slotOccupy (slots : SlotMap) (n : Name) (t : TxId)
    (q : Name) :
    lookupSlot (slotOccupy slots n t) q =
      if q = n then some t else lookupSlot slots q := by
  by_cases hq : q = n
  · subst hq
    simp [slotOccupy, lookupSlot]
  · have hnq : ¬(n = q) := fun h => hq h.symm
    simp [slotOccupy, lookupSlot, hnq, hq, lookupSlot_filterOut]

/-- C4.  A candidate registration is accepted by `checkNameOps` iff the
registration slot for its name is unoccupied; consequently, admitting a
registration for a name makes `isRegistered` true and a second independent
registration rejected, and removing that transaction makes `isRegistered`
false again with both registrations accepted. -/
theorem checkNameOps_registration_policy :
    (∀ (pool : NameMemPool) (tx : Transaction) (n : Name) (v : Value)
        (i : Nat), extract tx = NameOperation.registrationOp n v i →
        (checkNameOps pool tx = true ↔ isRegistered pool n = false)) ∧
    (∀ (tx1 tx2 : Transaction) (n : Name) (v1 v2 : Value) (i1 i2 : Nat),
        extract tx1 = NameOperation.registrationOp n v1 i1 →
        extract tx2 = NameOperation.registrationOp n v2 i2 →
        isRegistered (addUnchecked emptyPool tx1) n = true ∧
        checkNameOps (addUnchecked emptyPool tx1) tx2 = false ∧
        isRegistered (removeTx (addUnchecked emptyPool tx1) tx1) n = false ∧
        checkNameOps (removeTx (addUnchecked emptyPool tx1) tx1) tx1 = true ∧
        checkNameOps (removeTx (addUnchecked emptyPool tx1) tx1) tx2 = true) := by
  constructor
  · intro pool tx n v i h
    simp [checkNameOps, h]
  · intro tx1 tx2 n v1 v2 i1 i2 h1 h2
    have hreg : isRegistered (addUnchecked emptyPool tx1) n = true := by
      simp [addUnchecked, h1, isRegistered, emptyPool, lookupSlot_slotOccupy]
    have hrem :
        isRegistered (removeTx (addUnchecked emptyPool tx1) tx1) n = false := by
      simp [removeTx, addUnchecked, h1, isRegistered, emptyPool,
        lookupSlot_slotRelease, lookupSlot_slotOccupy]
    refine ⟨hreg, ?_, hrem, ?_, ?_⟩
    · simp [checkNameOps, h2, hreg]
    · simp [checkNameOps, h1, hrem]
    · simp [checkNameOps, h2, hrem]

/-- Witness for C4 at the `name_register` unit-test scenario. -/
theorem checkNameOps_registration_policy_witness :
    isRegistered (addUnchecked emptyPool fooReg1) [1] = true ∧
    checkNameOps (addUnchecked emptyPool fooReg1) fooReg2 = false ∧
    isRegistered (removeTx (addUnchecked emptyPool fooReg1) fooReg1) [1]
      = false ∧
    checkNameOps (removeTx (addUnchecked emptyPool fooReg1) fooReg1) fooReg1
      = true ∧
    checkNameOps (removeTx (addUnchecked emptyPool fooReg1) fooReg1) fooReg2
      = true :=
  checkNameOps_registration_policy.2 fooReg1 fooReg2 [1] [10] [11] 0 0
    (by decide) (by decide)

/-- C5.  Removing a transaction only clears a slot whose current occupant
is that transaction: for any name whose slot occupant differs from the
removed transaction (in particular when the removed transaction holds no
slot, or has been superseded by a newer occupant), the slot lookup is
unchanged. -/
theorem removeTx_slot_frame :
    ∀ (pool : NameMemPool) (tx : Transaction) (n : Name),
      (lookupSlot pool.regSlot n ≠ some tx.txid →
        lookupSlot (removeTx pool tx).regSlot n = lookupSlot pool.regSlot n) ∧
      (lookupSlot pool.updSlot n ≠ some tx.txid →
        lookupSlot (removeTx pool tx).updSlot n = lookupSlot pool.updSlot n) := by
  intro pool tx n
  cases hop : extract tx with
  | noneOp => simp [removeTx, hop]
  | registrationOp m v i =>
    constructor
    · intro hne
      simp only [removeTx, hop]
      rw [lookupSlot_slotRelease]
      have hc : ¬(n = m ∧ lookupSlot pool.regSlot m = some tx.txid) := by
        rintro ⟨rfl, hl⟩
        exact hne hl
      rw [if_neg hc]
    · intro _
      simp [removeTx, hop]
  | updateOp m v i =>
    constructor
    · intro _
      simp [removeTx, hop]
    · intro hne
      simp only [removeTx, hop]
      rw [lookupSlot_slotRelease]
      have hc : ¬(n = m ∧ lookupSlot pool.updSlot m = some tx.txid) := by
        rintro ⟨rfl, hl⟩
        exact hne hl
      rw [if_neg hc]

/-- Witness for C5: removing a transaction that holds no slot for name
`[1]` leaves the occupied registration slot for `[1]` unchanged. -/
theorem removeTx_slot_frame_witness :
    lookupSlot (removeTx fooPool fooReg2).regSlot [1]
      = lookupSlot fooPool.regSlot [1] :=
  (removeTx_slot_frame fooPool fooReg2 [1]).1 (by decide)

/-- Filtering an enumerated list by a predicate on the payload keeps as
many elements as filtering the plain list. -/
theorem length_filter_enumFrom (f : Script → Bool) :
    ∀ (k : Nat) (l : List Script),
      ((List.enumFrom k l).filter (fun p => f p.2)).length
        = (l.filter f).length := by
  intro k l
  induction l generalizing k with
  | nil => rfl
  | cons s rest ih =>
    simp only [List.enumFrom, List.filter_cons]
    cases hf : f s <;> simp [hf, ih]

/-- C6.  A transaction whose outputs carry zero, or two or more,
name-carrying scripts is classified as carrying no name operation, and
`checkNameOps` accepts it in every pool state. -/
theorem extract_degenerate :
    ∀ (pool : NameMemPool) (tx : Transaction),
      (tx.outputs.filter Script.isNameScript).length ≠ 1 →
      extract tx = NameOperation.noneOp ∧ checkNameOps pool tx = true := by
  intro pool tx h
  have hlen :
      (tx.outputs.enum.filter (fun p => Script.isNameScript p.2)).length ≠ 1 := by
    rw [List.enum, length_filter_enumFrom]
    exact h
  have hex : extract tx = NameOperation.noneOp := by
    unfold extract
    split
    · exfalso
      apply hlen
      rename_i heq
      rw [heq]
      rfl
    · exfalso
      apply hlen
      rename_i heq
      rw [heq]
      rfl
    · rfl
  exact ⟨hex, by simp [checkNameOps, hex]⟩

/-- Witness for C6 at the `invalid_tx` unit-test transaction with four
name outputs. -/
theorem extract_degenerate_witness :
    (invalidTx.outputs.filter Script.isNameScript).length ≠ 1 ∧
    (extract invalidTx = NameOperation.noneOp ∧
      checkNameOps chainPool invalidTx = true) :=
  ⟨by decide, extract_degenerate chainPool invalidTx (by decide)⟩

/-- C1.  A candidate update is accepted by `checkNameOps` when neither
slot of its name is occupied; when either slot is occupied it is accepted
iff its declared inputs spend exactly `lastNameOutput` of the name, and
rejected otherwise. -/
theorem checkNameOps_update_policy :
    ∀ (pool : NameMemPool) (tx : Transaction) (n : Name) (v : Value)
      (i : Nat), extract tx = NameOperation.updateOp n v i →
      (isRegistered pool n = false ∧ isUpdated pool n = false →
        checkNameOps pool tx = true) ∧
      (isRegistered pool n = true ∨ isUpdated pool n = true →
        (checkNameOps pool tx = true ↔
          ∃ o, lastNameOutput pool n = some o ∧ o ∈ tx.inputs)) := by
  intro pool tx n v i h
  constructor
  · rintro ⟨h1, h2⟩
    simp [checkNameOps, h, h1, h2]
  · intro hocc
    have hcond : (!(isRegistered pool n) && !(isUpdated pool n)) = false := by
      rcases hocc with h1 | h1 <;> simp [h1]
    simp only [checkNameOps, h, hcond, Bool.false_eq_true, if_false]
    cases hl : lastNameOutput pool n with
    | none => simp
    | some outp => simp

/-- Witness for C1 at the chained-update scenario: the update slot for
name `[2]` is occupied, and the chained candidate spending the chain tip
is accepted. -/
theorem checkNameOps_update_policy_witness :
    (isRegistered chainPool [2] = true ∨ isUpdated chainPool [2] = true) ∧
    (checkNameOps chainPool updTx4 = true ↔
      ∃ o, lastNameOutput chainPool [2] = some o ∧ o ∈ updTx4.inputs) :=
  ⟨Or.inr (by decide),
    (checkNameOps_update_policy chainPool updTx4 [2] [4] 0 (by decide)).2
      (Or.inr (by decide))⟩

/-- A chain walk from a candidate with no pooled continuation returns the
candidate itself. -/
theorem chainWalk_no_continuation (entries : List Transaction) (nm : Name)
    (fuel : Nat) (tx : Transaction)
    (hstep : chainStep entries nm tx = Option.none) :
    chainWalk entries nm fuel tx = tx := by
  cases fuel with
  | zero => rfl
  | succ k => simp [chainWalk, hstep]

/-- C2.  The chain resolver returns the final candidate's name outpoint:
when no pooled entry spends the starting candidate's name output the
result is that candidate's own name outpoint, and on the T1/T2/T3
chained-update scenario the result is T3's output-1 outpoint. -/
theorem lastNameOutput_chain_resolution :
    (∀ (pool : NameMemPool) (nm : Name) (tx : Transaction),
        startCandidate pool nm = some tx →
        (∀ e ∈ pool.entries, ∀ o, nameOutpoint tx = some o →
          spends e o = false) →
        lastNameOutput pool nm = nameOutpoint tx) ∧
    lastNameOutput chainPool [2] = some ⟨3, 1⟩ ∧
    lastNameOutput (addUnchecked emptyPool fooReg1) [1] = some ⟨1, 0⟩ := by
  refine ⟨?_, by decide, by decide⟩
  intro pool nm tx hstart hno
  have hstep : chainStep pool.entries nm tx = Option.none := by
    cases ho : nameOutpoint tx with
    | none => simp [chainStep, ho]
    | some outp =>
      have hfil : pool.entries.filter (fun e => spends e outp) = [] := by
        apply List.filter_eq_nil_iff.mpr
        intro e he
        simp [hno e he outp ho]
      simp [chainStep, ho, hfil]
  simp [lastNameOutput, hstart, chainWalk_no_continuation _ _ _ _ hstep]

/-- Witness for C2: a pool holding a single registration resolves to that
transaction's own name outpoint. -/
theorem lastNameOutput_chain_resolution_witness :
    startCandidate (addUnchecked emptyPool fooReg1) [1] = some fooReg1 ∧
    lastNameOutput (addUnchecked emptyPool fooReg1) [1]
      = nameOutpoint fooReg1 := by
  refine ⟨by decide, ?_⟩
  apply lastNameOutput_chain_resolution.1 (addUnchecked emptyPool fooReg1)
    [1] fooReg1 (by decide)
  intro e he o ho
  have ho2 : some (⟨1, 0⟩ : Outpoint) = some o := ho
  injection ho2 with h
  subst h
  have he2 : e ∈ [fooReg1] := he
  rw [List.mem_singleton] at he2
  subst he2
  decide

/-- A successful slot lookup is a binding of the slot map. -/
theorem lookupSlot_mem :
    ∀ (slots : SlotMap) (n : Name) (t : TxId),
      lookupSlot slots n = some t → (n, t) ∈ slots := by
  intro slots n t
  induction slots with
  | nil => intro h; cases h
  | cons p rest ih =>
    intro h
    by_cases hp : p.1 = n
    · rw [lookupSlot, if_pos hp] at h
      have ht := Option.some.inj h
      rcases p with ⟨pn, pt⟩
      cases hp
      cases ht
      exact List.mem_cons_self _ _
    · rw [lookupSlot, if_neg hp] at h
      exact List.mem_cons_of_mem _ (ih h)

/-- With pairwise distinct entry identifiers, `findEntry` returns exactly
the member entry carrying the looked-up identifier. -/
theorem findEntry_eq_of_mem :
    ∀ (entries : List Transaction) (e : Transaction) (t : TxId),
      (entries.map Transaction.txid).Nodup → e ∈ entries → e.txid = t →
      findEntry entries t = some e := by
  intro entries e t
  induction entries with
  | nil => intro _ he _; cases he
  | cons a rest ih =>
    intro hnd he het
    rw [List.map_cons, List.nodup_cons] at hnd
    by_cases ha : a.txid = t
    · rw [findEntry, if_pos ha]
      rcases List.mem_cons.mp he with rfl | hrest
      · rfl
      · exfalso
        apply hnd.1
        rw [ha, ← het]
        exact List.mem_map_of_mem _ hrest
    · rw [findEntry, if_neg ha]
      rcases List.mem_cons.mp he with rfl | hrest
      · exact absurd het ha
      · exact ih hnd.2 hrest het

/-- A coherent registration slot points at a pooled entry registering the
slot's name. -/
theorem coherent_regSlot (pool : NameMemPool)
    (h : slotIndexCoherent pool = true) (n : Name) (t : TxId)
    (hl : lookupSlot pool.regSlot n = some t) :
    ∃ e ∈ pool.entries, e.txid = t ∧ entryRegisters e n = true := by
  have hmem := lookupSlot_mem _ _ _ hl
  rw [slotIndexCoherent, Bool.and_eq_true] at h
  have h2 := List.all_eq_true.mp h.1 (n, t) hmem
  obtain ⟨e, he, hb⟩ := List.any_eq_true.mp h2
  rw [Bool.and_eq_true] at hb
  exact ⟨e, he, of_decide_eq_true hb.1, hb.2⟩

/-- A coherent update slot points at a pooled entry updating the slot's
name. -/
theorem coherent_updSlot (pool : NameMemPool)
    (h : slotIndexCoherent pool = true) (n : Name) (t : TxId)
    (hl : lookupSlot pool.updSlot n = some t) :
    ∃ e ∈ pool.entries, e.txid = t ∧ entryUpdates e n = true := by
  have hmem := lookupSlot_mem _ _ _ hl
  rw [slotIndexCoherent, Bool.and_eq_true] at h
  have h2 := List.all_eq_true.mp h.2 (n, t) hmem
  obtain ⟨e, he, hb⟩ := List.any_eq_true.mp h2
  rw [Bool.and_eq_true] at hb
  exact ⟨e, he, of_decide_eq_true hb.1, hb.2⟩

/-- An entry registering a name targets that name. -/
theorem opName_of_entryRegisters (e : Transaction) (n : Name)
    (h : entryRegisters e n = true) :
    NameOperation.opName (extract e) = some n := by
  cases hx : extract e with
  | noneOp =>
    simp only [entryRegisters, hx] at h
    exact Bool.noConfusion h
  | registrationOp m v i =>
    simp only [entryRegisters, hx] at h
    simp [NameOperation.opName, of_decide_eq_true h]
  | updateOp m v i =>
    simp only [entryRegisters, hx] at h
    exact Bool.noConfusion h

/-- An entry updating a name targets that name. -/
theorem opName_of_entryUpdates (e : Transaction) (n : Name)
    (h : entryUpdates e n = true) :
    NameOperation.opName (extract e) = some n := by
  cases hx : extract e with
  | noneOp =>
    simp only [entryUpdates, hx] at h
    exact Bool.noConfusion h
  | registrationOp m v i =>
    simp only [entryUpdates, hx] at h
    exact Bool.noConfusion h
  | updateOp m v i =>
    simp only [entryUpdates, hx] at h
    simp [NameOperation.opName, of_decide_eq_true h]

/-- An entry that targets a name has a name-carrying output. -/
theorem nameOutpoint_of_opName (c : Transaction) (n : Name)
    (h : NameOperation.opName (extract c) = some n) :
    ∃ o, nameOutpoint c = some o := by
  cases hx : extract c with
  | noneOp =>
    rw [hx] at h
    simp only [NameOperation.opName] at h
    exact Option.noConfusion h
  | registrationOp m v i => exact ⟨⟨c.txid, i⟩, by simp [nameOutpoint, hx]⟩
  | updateOp m v i => exact ⟨⟨c.txid, i⟩, by simp [nameOutpoint, hx]⟩

/-- A successful chain-resolver step yields an entry targeting the walked
name. -/
theorem chainStep_target (entries : List Transaction) (nm : Name)
    (c e : Transaction) (h : chainStep entries nm c = some e) :
    NameOperation.opName (extract e) = some nm := by
  cases ho : nameOutpoint c with
  | none =>
    simp only [chainStep, ho] at h
    exact Option.noConfusion h
  | some outp =>
    simp only [chainStep, ho] at h
    cases hf : entries.filter (fun x => spends x outp) with
    | nil =>
      simp only [hf] at h
      exact Option.noConfusion h
    | cons a rest =>
      cases rest with
      | nil =>
        simp only [hf] at h
        by_cases hc : NameOperation.opName (extract a) = some nm
        · rw [if_pos hc] at h
          cases Option.some.inj h
          exact hc
        · rw [if_neg hc] at h
          exact Option.noConfusion h
      | cons b rest2 =>
        simp only [hf] at h
        exact Option.noConfusion h

/-- The chain walk preserves the walked name: every candidate along the
walk targets it. -/
theorem chainWalk_target (entries : List Transaction) (nm : Name) :
    ∀ (fuel : Nat) (c : Transaction),
      NameOperation.opName (extract c) = some nm →
      NameOperation.opName (extract (chainWalk entries nm fuel c))
        = some nm := by
  intro fuel
  induction fuel with
  | zero => intro c h; exact h
  | succ k ih =>
    intro c h
    cases hs : chainStep entries nm c with
    | none => simpa [chainWalk, hs] using h
    | some e => simpa [chainWalk, hs] using ih e (chainStep_target _ _ _ _ hs)

/-- C8.  On a well-formed pool, `lastNameOutput` is NotFound exactly for
names with no pending operation: it returns `Option.none` when neither
slot is occupied, and returns an outpoint whenever `isRegistered` or
`isUpdated` holds.  Both outcomes are ordinary values of the model's total
function — there is no exceptional path. -/
theorem lastNameOutput_total (pool : NameMemPool) (nm : Name)
    (hwf : nmpWf pool) :
    (isRegistered pool nm = false ∧ isUpdated pool nm = false →
      lastNameOutput pool nm = Option.none) ∧
    ((isRegistered pool nm = true ∨ isUpdated pool nm = true) →
      ∃ o, lastNameOutput pool nm = some o) := by
  obtain ⟨hnd, hcoh⟩ := hwf
  constructor
  · rintro ⟨h1, h2⟩
    cases hr : lookupSlot pool.regSlot nm with
    | some t => rw [isRegistered, hr] at h1; cases h1
    | none =>
      cases hu : lookupSlot pool.updSlot nm with
      | some t => rw [isUpdated, hu] at h2; cases h2
      | none => simp [lastNameOutput, startCandidate, hr, hu]
  · intro hocc
    cases hu : lookupSlot pool.updSlot nm with
    | some t =>
      obtain ⟨e, he, het, hupd⟩ := coherent_updSlot pool hcoh nm t hu
      have hfind : findEntry pool.entries t = some e :=
        findEntry_eq_of_mem _ _ _ hnd he het
      have htgt := chainWalk_target pool.entries nm pool.entries.length e
        (opName_of_entryUpdates e nm hupd)
      obtain ⟨o, ho⟩ := nameOutpoint_of_opName _ _ htgt
      exact ⟨o, by simp [lastNameOutput, startCandidate, hu, hfind, ho]⟩
    | none =>
      have hreg : lookupSlot pool.regSlot nm ≠ Option.none := by
        intro hr
        rcases hocc with h | h
        · rw [isRegistered, hr] at h; cases h
        · rw [isUpdated, hu] at h; cases h
      cases hr : lookupSlot pool.regSlot nm with
      | none => exact absurd hr hreg
      | some t =>
        obtain ⟨e, he, het, hregs⟩ := coherent_regSlot pool hcoh nm t hr
        have hfind : findEntry pool.entries t = some e :=
          findEntry_eq_of_mem _ _ _ hnd he het
        have htgt := chainWalk_target pool.entries nm pool.entries.length e
          (opName_of_entryRegisters e nm hregs)
        obtain ⟨o, ho⟩ := nameOutpoint_of_opName _ _ htgt
        exact ⟨o, by simp [lastNameOutput, startCandidate, hu, hr, hfind, ho]⟩

/-- Witness for C8 at the chained-update pool: the pool is well-formed,
name `[2]` has a pending update, and `lastNameOutput` returns an
outpoint; for the never-seen name `[7]` it returns NotFound. -/
theorem lastNameOutput_total_witness :
    nmpWf chainPool ∧
    (∃ o, lastNameOutput chainPool [2] = some o) ∧
    lastNameOutput chainPool [7] = Option.none :=
  ⟨by decide,
    (lastNameOutput_total chainPool [2] (by decide)).2 (Or.inr (by decide)),
    (lastNameOutput_total chainPool [7] (by decide)).1 (by decide)⟩

/-- C7 counterexample.  The stated acceptance condition — every pooled
update's name is confirmed or occupies the registration slot — is not
sufficient for `checkNames`: a pool whose registration slot dangles (the
slot for name `[0]` names transaction 1 while the pool holds no entries)
satisfies the condition vacuously yet is flagged as inconsistent, because
`checkNames` also verifies the slot index's internal bookkeeping. -/
theorem checkNames_condition_insufficient :
    (∀ e ∈ danglingSlotPool.entries, ∀ (n : Name) (v : Value) (i : Nat),
        extract e = NameOperation.updateOp n v i →
        ((lookupName [] n).isSome = true ∨
          isRegistered danglingSlotPool n = true)) ∧
    checkNames [] danglingSlotPool = false := by
  constructor
  · intro e he
    cases he
  · decide

/-- C7 (amended).  `checkNames` accepts every pool state whose slot index
is internally coherent and in which each pooled update operation's name is
present in the confirmed view or occupies the registration slot; in
particular the pool holding an unconfirmed registration of `[3]` and a
chained unconfirmed update of the same name passes with `[3]` absent from
confirmed state. -/
theorem checkNames_accepts :
    (∀ (view : ChainState) (pool : NameMemPool),
        slotIndexCoherent pool = true →
        (∀ e ∈ pool.entries, ∀ (n : Name) (v : Value) (i : Nat),
            extract e = NameOperation.updateOp n v i →
            ((lookupName view n).isSome = true ∨ isRegistered pool n = true)) →
        checkNames view pool = true) ∧
    checkNames [] chainedRegUpdPool = true := by
  constructor
  · intro view pool hcoh hknown
    rw [checkNames, Bool.and_eq_true]
    refine ⟨hcoh, ?_⟩
    apply List.all_eq_true.mpr
    intro e he
    cases hx : extract e with
    | noneOp => simp [hx]
    | registrationOp n v i => simp [hx]
    | updateOp n v i =>
      have hk := hknown e he n v i hx
      rcases hk with h | h <;> simp [hx, h]
  · decide

/-- Witness for C7 (amended) at a confirmed view that does not know the
chained name `[3]`. -/
theorem checkNames_accepts_witness :
    checkNames [([9], ⟨[1], ⟨50, 0⟩⟩)] chainedRegUpdPool = true := by
  apply checkNames_accepts.1
  · decide
  · intro e he n v i hx
    have he2 : e = regN ∨ e = updN := by
      have hmem : e ∈ [regN, updN] := he
      simpa using hmem
    rcases he2 with rfl | rfl
    · have hx2 : NameOperation.registrationOp [3] [1] 0
          = NameOperation.updateOp n v i := hx
      exact NameOperation.noConfusion hx2
    · have hx2 : NameOperation.updateOp [3] [2] 0
          = NameOperation.updateOp n v i := hx
      injection hx2 with h1 h2 h3
      subst h1
      exact Or.inr (by decide)

/-- Marked identifiers stay marked across closure iteration. -/
theorem closureIter_subset (entries : List Transaction) :
    ∀ (fuel : Nat) (rem : List TxId) (t : TxId),
      t ∈ rem → t ∈ closureIter entries fuel rem := by
  intro fuel
  induction fuel with
  | zero => intro rem t ht; exact ht
  | succ k ih =>
    intro rem t ht
    exact ih (closureStep entries rem) t (List.mem_append_left _ ht)

/-- A pointwise-weaker Boolean predicate filters at most as many
elements. -/
theorem length_filter_mono {α : Type} (p q : α → Bool) (l : List α)
    (h : ∀ a, p a = true → q a = true) :
    (l.filter p).length ≤ (l.filter q).length := by
  induction l with
  | nil => exact Nat.le_refl _
  | cons b tl ih =>
    cases hp : p b with
    | true =>
      have hq := h b hp
      simp only [List.filter_cons, hp, hq, if_pos, List.length_cons]
      omega
    | false =>
      cases hq : q b with
      | true =>
        simp only [List.filter_cons, hp, hq, if_pos, List.length_cons,
          Bool.false_eq_true, if_false]
        omega
      | false =>
        simp only [List.filter_cons, hp, hq, Bool.false_eq_true, if_false]
        exact ih

/-- A pointwise-weaker predicate that newly accepts a member filters
strictly more elements. -/
theorem length_filter_lt {α : Type} (p q : α → Bool) (l : List α)
    (h : ∀ x, p x = true → q x = true) (a : α) (ha : a ∈ l)
    (hpa : p a = false) (hqa : q a = true) :
    (l.filter p).length < (l.filter q).length := by
  induction l with
  | nil => cases ha
  | cons b tl ih =>
    rcases List.mem_cons.mp ha with rfl | hatl
    · have hmono := length_filter_mono p q tl h
      simp only [List.filter_cons, hpa, hqa, if_pos, Bool.false_eq_true,
        if_false, List.length_cons]
      omega
    · cases hp : p b with
      | true =>
        have hq := h b hp
        have hlt := ih hatl
        simp only [List.filter_cons, hp, hq, if_pos, List.length_cons]
        omega
      | false =>
        cases hq : q b with
        | true =>
          have hlt := ih hatl
          simp only [List.filter_cons, hp, hq, if_pos, Bool.false_eq_true,
            if_false, List.length_cons]
          omega
        | false =>
          have hlt := ih hatl
          simp only [List.filter_cons, hp, hq, Bool.false_eq_true, if_false]
          exact hlt

/-- Once a marking is stable — one closure step adds nothing — iterating
leaves it unchanged. -/
theorem stable_closureIter (entries : List Transaction) :
    ∀ (fuel : Nat) (rem : List TxId),
      closureAdds entries rem = [] → closureIter entries fuel rem = rem := by
  intro fuel
  induction fuel with
  | zero => intro rem _; rfl
  | succ k ih =>
    intro rem hst
    have hstep : closureStep entries rem = rem := by
      simp [closureStep, hst]
    show closureIter entries k (closureStep entries rem) = rem
    rw [hstep]
    exact ih rem hst

/-- Enough fuel reaches a stable marking: with one iteration per pool
entry beyond the marked ones, the closure step at the result adds
nothing. -/
theorem closureIter_reaches_stable (entries : List Transaction) :
    ∀ (fuel : Nat) (rem : List TxId),
      entries.length ≤ fuel +
        (entries.filter (fun e => decide (e.txid ∈ rem))).length →
      closureAdds entries (closureIter entries fuel rem) = [] := by
  intro fuel
  induction fuel with
  | zero =>
    intro rem hle
    show closureAdds entries rem = []
    have hsub := List.filter_sublist (p := fun e => decide (e.txid ∈ rem))
      (l := entries)
    have hlen : (entries.filter
        (fun e => decide (e.txid ∈ rem))).length = entries.length := by
      have := hsub.length_le
      omega
    have heq : entries.filter (fun e => decide (e.txid ∈ rem)) = entries :=
      hsub.eq_of_length hlen
    have hall : ∀ e ∈ entries, decide (e.txid ∈ rem) = true :=
      List.filter_eq_self.mp heq
    unfold closureAdds
    rw [List.map_eq_nil_iff]
    apply List.filter_eq_nil_iff.mpr
    intro t ht
    simp [hall t ht]
  | succ k ih =>
    intro rem hle
    show closureAdds entries (closureIter entries k (closureStep entries rem))
      = []
    by_cases hst : closureAdds entries rem = []
    · have hstep : closureStep entries rem = rem := by simp [closureStep, hst]
      rw [hstep, stable_closureIter entries k rem hst]
      exact hst
    · apply ih
      have hex : ∃ a, a ∈ entries.filter
          (fun t => !(decide (t.txid ∈ rem)) && txDependsOn rem t) := by
        rcases hfe : entries.filter
            (fun t => !(decide (t.txid ∈ rem)) && txDependsOn rem t) with
          _ | ⟨a, l⟩
        · exfalso
          apply hst
          unfold closureAdds
          rw [hfe]
          rfl
        · exact ⟨a, by rw [hfe]; exact List.mem_cons_self _ _⟩
      obtain ⟨a, haf⟩ := hex
      have hmem := List.mem_filter.mp haf
      have hpred := hmem.2
      rw [Bool.and_eq_true] at hpred
      have hnotin : decide (a.txid ∈ rem) = false := by
        cases hd : decide (a.txid ∈ rem)
        · rfl
        · rw [hd] at hpred
          exact absurd hpred.1 (by simp)
      have hin2 : decide (a.txid ∈ closureStep entries rem) = true := by
        apply decide_eq_true
        apply List.mem_append_right
        unfold closureAdds
        exact List.mem_map_of_mem _ haf
      have hlt := length_filter_lt (fun e => decide (e.txid ∈ rem))
        (fun e => decide (e.txid ∈ closureStep entries rem)) entries
        (fun x hx =>
          decide_eq_true (List.mem_append_left _ (of_decide_eq_true hx)))
        a hmem.1 hnotin hin2
      omega

/-- Seeds belong to their dependency closure. -/
theorem depClosure_seeds_subset (entries : List Transaction)
    (seeds : List TxId) (t : TxId) (ht : t ∈ seeds) :
    t ∈ depClosure entries seeds :=
  closureIter_subset entries entries.length seeds t ht

/-- The dependency closure is closed: a pool entry directly spending an
output of a marked transaction is itself marked. -/
theorem depClosure_closed (entries : List Transaction) (seeds : List TxId)
    (e : Transaction) (he : e ∈ entries)
    (hdep : txDependsOn (depClosure entries seeds) e = true) :
    e.txid ∈ depClosure entries seeds := by
  have hstable : closureAdds entries (depClosure entries seeds) = [] :=
    closureIter_reaches_stable entries entries.length seeds (by omega)
  by_contra hnot
  have hmem : e.txid ∈ closureAdds entries (depClosure entries seeds) := by
    unfold closureAdds
    apply List.mem_map_of_mem
    apply List.mem_filter.mpr
    refine ⟨he, ?_⟩
    rw [Bool.and_eq_true]
    exact ⟨by simp [hnot], hdep⟩
  rw [hstable] at hmem
  cases hmem

/-- An entry registering a name extracts to a registration of it. -/
theorem entryRegisters_extract (e : Transaction) (q : Name)
    (h : entryRegisters e q = true) :
    ∃ v i, extract e = NameOperation.registrationOp q v i := by
  cases hx : extract e with
  | noneOp =>
    simp only [entryRegisters, hx] at h
    exact Bool.noConfusion h
  | registrationOp m v i =>
    simp only [entryRegisters, hx] at h
    have hm := of_decide_eq_true h
    subst hm
    exact ⟨v, i, rfl⟩
  | updateOp m v i =>
    simp only [entryRegisters, hx] at h
    exact Bool.noConfusion h

/-- An entry updating a name extracts to an update of it. -/
theorem entryUpdates_extract (e : Transaction) (q : Name)
    (h : entryUpdates e q = true) :
    ∃ v i, extract e = NameOperation.updateOp q v i := by
  cases hx : extract e with
  | noneOp =>
    simp only [entryUpdates, hx] at h
    exact Bool.noConfusion h
  | registrationOp m v i =>
    simp only [entryUpdates, hx] at h
    exact Bool.noConfusion h
  | updateOp m v i =>
    simp only [entryUpdates, hx] at h
    have hm := of_decide_eq_true h
    subst hm
    exact ⟨v, i, rfl⟩

/-- A lookup surviving a `release` was present before it. -/
theorem lookup_slotRelease_some (slots : SlotMap) (m : Name) (u : TxId)
    (q : Name) (t : TxId)
    (h : lookupSlot (slotRelease slots m u) q = some t) :
    lookupSlot slots q = some t := by
  rw [lookupSlot_slotRelease] at h
  by_cases hc : q = m ∧ lookupSlot slots m = some u
  · rw [if_pos hc] at h
    exact Option.noConfusion h
  · rw [if_neg hc] at h
    exact h

/-- An empty lookup stays empty across a `release`. -/
theorem lookup_slotRelease_none (slots : SlotMap) (m : Name) (u : TxId)
    (q : Name) (h : lookupSlot slots q = Option.none) :
    lookupSlot (slotRelease slots m u) q = Option.none := by
  rw [lookupSlot_slotRelease]
  by_cases hc : q = m ∧ lookupSlot slots m = some u <;> simp [hc, h]

/-- A lookup surviving one registration-release step was present before. -/
theorem lookup_releaseReg_some (slots : SlotMap) (e : Transaction)
    (q : Name) (t : TxId)
    (h : lookupSlot (releaseReg slots e) q = some t) :
    lookupSlot slots q = some t := by
  cases hx : extract e with
  | noneOp => simpa only [releaseReg, hx] using h
  | registrationOp n v i =>
    simp only [releaseReg, hx] at h
    exact lookup_slotRelease_some _ _ _ _ _ h
  | updateOp n v i => simpa only [releaseReg, hx] using h

/-- An empty lookup stays empty across one registration-release step. -/
theorem lookup_releaseReg_none (slots : SlotMap) (e : Transaction)
    (q : Name) (h : lookupSlot slots q = Option.none) :
    lookupSlot (releaseReg slots e) q = Option.none := by
  cases hx : extract e with
  | noneOp => simpa only [releaseReg, hx] using h
  | registrationOp n v i =>
    simp only [releaseReg, hx]
    exact lookup_slotRelease_none _ _ _ _ h
  | updateOp n v i => simpa only [releaseReg, hx] using h

/-- A lookup surviving one update-release step was present before. -/
theorem lookup_releaseUpd_some (slots : SlotMap) (e : Transaction)
    (q : Name) (t : TxId)
    (h : lookupSlot (releaseUpd slots e) q = some t) :
    lookupSlot slots q = some t := by
  cases hx : extract e with
  | noneOp => simpa only [releaseUpd, hx] using h
  | registrationOp n v i => simpa only [releaseUpd, hx] using h
  | updateOp n v i =>
    simp only [releaseUpd, hx] at h
    exact lookup_slotRelease_some _ _ _ _ _ h

/-- An empty lookup stays empty across one update-release step. -/
theorem lookup_releaseUpd_none (slots : SlotMap) (e : Transaction)
    (q : Name) (h : lookupSlot slots q = Option.none) :
    lookupSlot (releaseUpd slots e) q = Option.none := by
  cases hx : extract e with
  | noneOp => simpa only [releaseUpd, hx] using h
  | registrationOp n v i => simpa only [releaseUpd, hx] using h
  | updateOp n v i =>
    simp only [releaseUpd, hx]
    exact lookup_slotRelease_none _ _ _ _ h

/-- A lookup surviving a registration-release pass was present before. -/
theorem foldl_releaseReg_some (S : List Transaction) :
    ∀ (slots : SlotMap) (q : Name) (t : TxId),
      lookupSlot (S.foldl releaseReg slots) q = some t →
      lookupSlot slots q = some t := by
  induction S with
  | nil => intro slots q t h; exact h
  | cons e S2 ih =>
    intro slots q t h
    exact lookup_releaseReg_some _ _ _ _ (ih (releaseReg slots e) q t h)

/-- An empty lookup stays empty across a registration-release pass. -/
theorem foldl_releaseReg_none (S : List Transaction) :
    ∀ (slots : SlotMap) (q : Name),
      lookupSlot slots q = Option.none →
      lookupSlot (S.foldl releaseReg slots) q = Option.none := by
  induction S with
  | nil => intro slots q h; exact h
  | cons e S2 ih =>
    intro slots q h
    exact ih (releaseReg slots e) q (lookup_releaseReg_none _ _ _ h)

/-- A lookup surviving an update-release pass was present before. -/
theorem foldl_releaseUpd_some (S : List Transaction) :
    ∀ (slots : SlotMap) (q : Name) (t : TxId),
      lookupSlot (S.foldl releaseUpd slots) q = some t →
      lookupSlot slots q = some t := by
  induction S with
  | nil => intro slots q t h; exact h
  | cons e S2 ih =>
    intro slots q t h
    exact lookup_releaseUpd_some _ _ _ _ (ih (releaseUpd slots e) q t h)

/-- An empty lookup stays empty across an update-release pass. -/
theorem foldl_releaseUpd_none (S : List Transaction) :
    ∀ (slots : SlotMap) (q : Name),
      lookupSlot slots q = Option.none →
      lookupSlot (S.foldl releaseUpd slots) q = Option.none := by
  induction S with
  | nil => intro slots q h; exact h
  | cons e S2 ih =>
    intro slots q h
    exact ih (releaseUpd slots e) q (lookup_releaseUpd_none _ _ _ h)

/-- Releasing a pass containing the current occupant of a registration
slot clears that slot. -/
theorem foldl_releaseReg_clears (S : List Transaction) :
    ∀ (slots : SlotMap) (q : Name) (t : TxId),
      lookupSlot slots q = some t →
      (∃ w ∈ S, w.txid = t ∧ entryRegisters w q = true) →
      lookupSlot (S.foldl releaseReg slots) q = Option.none := by
  induction S with
  | nil =>
    intro slots q t _ hex
    obtain ⟨w, hw, _⟩ := hex
    cases hw
  | cons e S2 ih =>
    intro slots q t hl hex
    obtain ⟨w, hw, hwt, hwr⟩ := hex
    show lookupSlot (S2.foldl releaseReg (releaseReg slots e)) q = Option.none
    rcases List.mem_cons.mp hw with rfl | hwS2
    · obtain ⟨v, i, hxe⟩ := entryRegisters_extract _ _ hwr
      have hrel : releaseReg slots w = slotRelease slots q w.txid := by
        simp [releaseReg, hxe]
      rw [hrel, hwt]
      have hnone : lookupSlot (slotRelease slots q t) q = Option.none := by
        rw [lookupSlot_slotRelease, if_pos ⟨rfl, hl⟩]
      exact foldl_releaseReg_none S2 _ q hnone
    · cases hq : lookupSlot (releaseReg slots e) q with
      | none => exact foldl_releaseReg_none S2 _ q hq
      | some t2 =>
        have hbefore := lookup_releaseReg_some slots e q t2 hq
        rw [hl] at hbefore
        have ht2 : t2 = t := (Option.some.inj hbefore).symm
        subst ht2
        exact ih (releaseReg slots e) q t2 hq ⟨w, hwS2, hwt, hwr⟩

/-- Releasing a pass containing the current occupant of an update slot
clears that slot. -/
theorem foldl_releaseUpd_clears (S : List Transaction) :
    ∀ (slots : SlotMap) (q : Name) (t : TxId),
      lookupSlot slots q = some t →
      (∃ w ∈ S, w.txid = t ∧ entryUpdates w q = true) →
      lookupSlot (S.foldl releaseUpd slots) q = Option.none := by
  induction S with
  | nil =>
    intro slots q t _ hex
    obtain ⟨w, hw, _⟩ := hex
    cases hw
  | cons e S2 ih =>
    intro slots q t hl hex
    obtain ⟨w, hw, hwt, hwr⟩ := hex
    show lookupSlot (S2.foldl releaseUpd (releaseUpd slots e)) q = Option.none
    rcases List.mem_cons.mp hw with rfl | hwS2
    · obtain ⟨v, i, hxe⟩ := entryUpdates_extract _ _ hwr
      have hrel : releaseUpd slots w = slotRelease slots q w.txid := by
        simp [releaseUpd, hxe]
      rw [hrel, hwt]
      have hnone : lookupSlot (slotRelease slots q t) q = Option.none := by
        rw [lookupSlot_slotRelease, if_pos ⟨rfl, hl⟩]
      exact foldl_releaseUpd_none S2 _ q hnone
    · cases hq : lookupSlot (releaseUpd slots e) q with
      | none => exact foldl_releaseUpd_none S2 _ q hq
      | some t2 =>
        have hbefore := lookup_releaseUpd_some slots e q t2 hq
        rw [hl] at hbefore
        have ht2 : t2 = t := (Option.some.inj hbefore).symm
        subst ht2
        exact ih (releaseUpd slots e) q t2 hq ⟨w, hwS2, hwt, hwr⟩

/-- Membership in the surviving entries of a removal pass. -/
theorem removeSet_keep_mem (pool : NameMemPool) (rem : List TxId)
    (e : Transaction) :
    e ∈ (removeSet pool rem).1.entries ↔
      e ∈ pool.entries ∧ ¬(e.txid ∈ rem) := by
  simp only [removeSet]
  rw [List.mem_filter]
  simp

/-- Membership in the removed entries of a removal pass. -/
theorem removeSet_removed_mem (pool : NameMemPool) (rem : List TxId)
    (e : Transaction) :
    e ∈ (removeSet pool rem).2 ↔ e ∈ pool.entries ∧ e.txid ∈ rem := by
  simp only [removeSet]
  rw [List.mem_filter]
  simp

/-- The removed entries form a sublist of the pool — removal order is pool
order. -/
theorem removeSet_sublist (pool : NameMemPool) (rem : List TxId) :
    ((removeSet pool rem).2).Sublist pool.entries := by
  simp only [removeSet]
  exact List.filter_sublist pool.entries

/-- After a removal pass on a coherent pool, a surviving registration slot
references a surviving entry registering its name. -/
theorem removeSet_regSlot (pool : NameMemPool) (rem : List TxId)
    (hcoh : slotIndexCoherent pool = true) (q : Name) (t : TxId)
    (hl : lookupSlot (removeSet pool rem).1.regSlot q = some t) :
    ∃ e ∈ (removeSet pool rem).1.entries,
      e.txid = t ∧ entryRegisters e q = true := by
  have hl0 : lookupSlot
      ((pool.entries.filter (fun x => decide (x.txid ∈ rem))).foldl
        releaseReg pool.regSlot) q = some t := hl
  have hl2 : lookupSlot pool.regSlot q = some t :=
    foldl_releaseReg_some _ _ _ _ hl0
  obtain ⟨e, he, het, her⟩ := coherent_regSlot pool hcoh q t hl2
  by_cases hin : e.txid ∈ rem
  · exfalso
    have hclr := foldl_releaseReg_clears
      (pool.entries.filter (fun x => decide (x.txid ∈ rem)))
      pool.regSlot q t hl2
      ⟨e, List.mem_filter.mpr ⟨he, decide_eq_true hin⟩, het, her⟩
    rw [hclr] at hl0
    cases hl0
  · exact ⟨e, (removeSet_keep_mem pool rem e).mpr ⟨he, hin⟩, het, her⟩

/-- After a removal pass on a coherent pool, a surviving update slot
references a surviving entry updating its name. -/
theorem removeSet_updSlot (pool : NameMemPool) (rem : List TxId)
    (hcoh : slotIndexCoherent pool = true) (q : Name) (t : TxId)
    (hl : lookupSlot (removeSet pool rem).1.updSlot q = some t) :
    ∃ e ∈ (removeSet pool rem).1.entries,
      e.txid = t ∧ entryUpdates e q = true := by
  have hl0 : lookupSlot
      ((pool.entries.filter (fun x => decide (x.txid ∈ rem))).foldl
        releaseUpd pool.updSlot) q = some t := hl
  have hl2 : lookupSlot pool.updSlot q = some t :=
    foldl_releaseUpd_some _ _ _ _ hl0
  obtain ⟨e, he, het, heu⟩ := coherent_updSlot pool hcoh q t hl2
  by_cases hin : e.txid ∈ rem
  · exfalso
    have hclr := foldl_releaseUpd_clears
      (pool.entries.filter (fun x => decide (x.txid ∈ rem)))
      pool.updSlot q t hl2
      ⟨e, List.mem_filter.mpr ⟨he, decide_eq_true hin⟩, het, heu⟩
    rw [hclr] at hl0
    cases hl0
  · exact ⟨e, (removeSet_keep_mem pool rem e).mpr ⟨he, hin⟩, het, heu⟩

/-- C3.  After `removeConflicts` for the name targeted by the confirming
transaction, on a well-formed pool: every slot occupant of that name that
is not an ancestor of the confirming transaction is gone from the pool and
recorded as removed; removal is closed under dependency (an entry spending
an output of a removed entry is itself removed); every surviving slot
references a surviving entry of the matching kind and name; and the
recorded list is exactly the set of removed transactions, in removal
order (a sublist of the pool order). -/
theorem removeConflicts_spec (pool : NameMemPool) (ctx : Transaction)
    (nm : Name) (hwf : nmpWf pool)
    (hop : NameOperation.opName (extract ctx) = some nm) :
    (∀ t, (lookupSlot pool.regSlot nm = some t ∨
            lookupSlot pool.updSlot nm = some t) →
        isAncestor pool.entries t ctx = false →
        (∀ e ∈ (removeConflicts pool ctx).1.entries, e.txid ≠ t) ∧
        (∃ e ∈ (removeConflicts pool ctx).2, e.txid = t)) ∧
    (∀ e ∈ pool.entries,
        (∃ d ∈ (removeConflicts pool ctx).2, ∃ o ∈ e.inputs,
          o.txid = d.txid) →
        e ∈ (removeConflicts pool ctx).2 ∧
        e ∉ (removeConflicts pool ctx).1.entries) ∧
    (∀ (q : Name) (t : TxId),
        (lookupSlot (removeConflicts pool ctx).1.regSlot q = some t →
          ∃ e ∈ (removeConflicts pool ctx).1.entries,
            e.txid = t ∧ entryRegisters e q = true) ∧
        (lookupSlot (removeConflicts pool ctx).1.updSlot q = some t →
          ∃ e ∈ (removeConflicts pool ctx).1.entries,
            e.txid = t ∧ entryUpdates e q = true)) ∧
    ((removeConflicts pool ctx).2.Sublist pool.entries ∧
      ∀ e ∈ pool.entries,
        (e ∈ (removeConflicts pool ctx).2 ↔
          e ∉ (removeConflicts pool ctx).1.entries)) := by
  obtain ⟨hnd, hcoh⟩ := hwf
  have hrc : removeConflicts pool ctx =
      removeSet pool (depClosure pool.entries
        (((lookupSlot pool.regSlot nm).toList ++
          (lookupSlot pool.updSlot nm).toList).filter
          (fun t => !(isAncestor pool.entries t ctx)))) := by
    simp only [removeConflicts, hop]
  rw [hrc]
  refine ⟨?_, ?_, ?_, ?_, ?_⟩
  · intro t hocc hanc
    have hseed : t ∈ ((lookupSlot pool.regSlot nm).toList ++
        (lookupSlot pool.updSlot nm).toList).filter
        (fun x => !(isAncestor pool.entries x ctx)) := by
      apply List.mem_filter.mpr
      refine ⟨?_, by simp [hanc]⟩
      rcases hocc with h | h
      · apply List.mem_append_left
        rw [h]
        simp [Option.toList]
      · apply List.mem_append_right
        rw [h]
        simp [Option.toList]
    have hrem := depClosure_seeds_subset pool.entries _ t hseed
    constructor
    · intro e he heq
      exact ((removeSet_keep_mem pool _ e).mp he).2 (by rw [heq]; exact hrem)
    · rcases hocc with h | h
      · obtain ⟨e, he, het, her⟩ := coherent_regSlot pool hcoh nm t h
        exact ⟨e, (removeSet_removed_mem pool _ e).mpr
          ⟨he, by rw [het]; exact hrem⟩, het⟩
      · obtain ⟨e, he, het, heu⟩ := coherent_updSlot pool hcoh nm t h
        exact ⟨e, (removeSet_removed_mem pool _ e).mpr
          ⟨he, by rw [het]; exact hrem⟩, het⟩
  · intro e he hdep
    obtain ⟨d, hd, o, ho, hod⟩ := hdep
    have hd2 := (removeSet_removed_mem pool _ d).mp hd
    have hdep2 : txDependsOn (depClosure pool.entries
        (((lookupSlot pool.regSlot nm).toList ++
          (lookupSlot pool.updSlot nm).toList).filter
          (fun t => !(isAncestor pool.entries t ctx)))) e = true := by
      unfold txDependsOn
      apply List.any_eq_true.mpr
      exact ⟨o, ho, decide_eq_true (by rw [hod]; exact hd2.2)⟩
    have hin := depClosure_closed pool.entries _ e he hdep2
    constructor
    · exact (removeSet_removed_mem pool _ e).mpr ⟨he, hin⟩
    · intro hk
      exact ((removeSet_keep_mem pool _ e).mp hk).2 hin
  · intro q t
    exact ⟨removeSet_regSlot pool _ hcoh q t, removeSet_updSlot pool _ hcoh q t⟩
  · exact removeSet_sublist pool _
  · intro e he
    constructor
    · intro hrem2 hk
      exact ((removeSet_keep_mem pool _ e).mp hk).2
        ((removeSet_removed_mem pool _ e).mp hrem2).2
    · intro hnk
      apply (removeSet_removed_mem pool _ e).mpr
      refine ⟨he, ?_⟩
      by_contra hnot
      exact hnk ((removeSet_keep_mem pool _ e).mpr ⟨he, hnot⟩)

/-- Witness for C3 at the `registration_conflicts` unit-test scenario:
the pooled registration of `[1]` (transaction 1) is no occupant-ancestor
of the confirming independent registration, so it is evicted and
recorded. -/
theorem removeConflicts_spec_witness :
    (∀ e ∈ (removeConflicts fooPool fooReg2).1.entries, e.txid ≠ 1) ∧
    (∃ e ∈ (removeConflicts fooPool fooReg2).2, e.txid = 1) :=
  (removeConflicts_spec fooPool fooReg2 [1] (by decide) (by decide)).1 1
    (Or.inl (by decide)) (by decide)

/-- C9.  The wallet's `name_update` RPC never builds a chained unconfirmed
update: whenever the mempool already has a pending update for the
requested name, it throws an RPC error before constructing any
transaction; and whenever it proceeds to build a transaction, the name
input it spends is the confirmed chain-state record's update outpoint —
never a pooled transaction's output. -/
theorem nameUpdateRpc_no_chaining :
    ∀ (pool : NameMemPool) (view : ChainState) (nm : Name) (nv vv : Bool),
      (isUpdated pool nm = true →
        ∃ err, nameUpdateRpc pool view nm nv vv = Except.error err) ∧
      (∀ outp, nameUpdateRpc pool view nm nv vv = Except.ok outp →
        ∃ d, lookupName view nm = some d ∧ outp = d.updOutpoint ∧
          isUpdated pool nm = false) := by
  intro pool view nm nv vv
  constructor
  · intro hupd
    cases nv with
    | false => exact ⟨RpcError.invalidParameter, by simp [nameUpdateRpc]⟩
    | true =>
      cases vv with
      | false => exact ⟨RpcError.invalidParameter, by simp [nameUpdateRpc]⟩
      | true => exact ⟨RpcError.pendingUpdate, by simp [nameUpdateRpc, hupd]⟩
  · intro outp h
    cases nv with
    | false => simp [nameUpdateRpc] at h
    | true =>
      cases vv with
      | false => simp [nameUpdateRpc] at h
      | true =>
        cases hu : isUpdated pool nm with
        | true => simp [nameUpdateRpc, hu] at h
        | false =>
          cases hl : lookupName view nm with
          | none => simp [nameUpdateRpc, hu, hl] at h
          | some d =>
            simp only [nameUpdateRpc, hu, hl, Bool.not_true,
              Bool.false_eq_true, if_false] at h
            refine ⟨d, rfl, ?_, rfl⟩
            exact (Except.ok.inj h).symm

/-- Witness for C9: a pending update for `[2]` makes the RPC throw, and on
a pool without one the built transaction spends the confirmed update
outpoint `(42, 0)`. -/
theorem nameUpdateRpc_no_chaining_witness :
    (∃ err, nameUpdateRpc chainPool [] [2] true true = Except.error err) ∧
    (∃ d, lookupName [([2], ⟨[9], ⟨42, 0⟩⟩)] [2] = some d ∧
      (⟨42, 0⟩ : Outpoint) = d.updOutpoint ∧ isUpdated emptyPool [2] = false) :=
  ⟨(nameUpdateRpc_no_chaining chainPool [] [2] true true).1 (by decide),
    (nameUpdateRpc_no_chaining emptyPool [([2], ⟨[9], ⟨42, 0⟩⟩)] [2]
      true true).2 ⟨42, 0⟩ (by decide)⟩

/-- A Boolean is false when its truth is contradictory. -/
theorem bool_eq_false_of_imp {b : Bool} (h : b = true → False) : b = false := by
  cases hb : b
  · rfl
  · exact absurd hb h

/-- Row lookup after filtering out a key: that key is gone, others are
untouched. -/
theorem lookupRow_filterOut (m : List (Name × NameListRow)) (n q : Name) :
    lookupRow (m.filter (fun p => !(decide (p.1 = n)))) q =
      if q = n then Option.none else lookupRow m q := by
  induction m with
  | nil => simp [lookupRow]
  | cons p rest ih =>
    by_cases hq : q = n
    · subst hq
      by_cases hp : p.1 = q
      · simp [List.filter_cons, hp, ih]
      · simp [List.filter_cons, hp, lookupRow, ih]
    · by_cases hp : p.1 = n
      · have hpq : ¬(p.1 = q) := fun h => hq (by rw [← h]; exact hp)
        simp [List.filter_cons, hp, lookupRow, ih, hq, hpq,
          show ¬(n = q) from fun h => hq h.symm]
      · simp [List.filter_cons, hp, lookupRow, ih, hq]

/-- Row lookup after insert-or-overwrite: the inserted key maps to the new
row, others are untouched. -/
theorem lookupRow_rowInsert (m : List (Name × NameListRow)) (n : Name)
    (row : NameListRow) (q : Name) :
    lookupRow (rowInsert m n row) q =
      if q = n then some row else lookupRow m q := by
  by_cases hq : q = n
  · subst hq
    simp [rowInsert, lookupRow]
  · have hnq : ¬(n = q) := fun h => hq h.symm
    simp [rowInsert, lookupRow, hnq, hq, lookupRow_filterOut]

/-- A successful row lookup is a member of the result map. -/
theorem lookupRow_mem :
    ∀ (m : List (Name × NameListRow)) (n : Name) (r : NameListRow),
      lookupRow m n = some r → (n, r) ∈ m := by
  intro m n r
  induction m with
  | nil => intro h; cases h
  | cons p rest ih =>
    intro h
    by_cases hp : p.1 = n
    · rw [lookupRow, if_pos hp] at h
      have ht := Option.some.inj h
      rcases p with ⟨pn, pr⟩
      cases hp
      cases ht
      exact List.mem_cons_self _ _
    · rw [lookupRow, if_neg hp] at h
      exact List.mem_cons_of_mem _ (ih h)

/-- Unpacking a qualifying wallet transaction: its first name output
carries the name, is a data-setting operation, the transaction is
confirmed, and the filter passes. -/
theorem qualifiesB_firstName (filt : Option Name) (n : Name) (w : WalletTx)
    (h : qualifiesB filt n w = true) :
    ∃ i s, firstNameOut w.outputs = some (i, s) ∧
      Script.scriptName s = some n ∧ Script.isAnyUpdate s = true ∧
      0 < w.depth ∧ (filt = Option.none ∨ filt = some n) := by
  cases hf : firstNameOut w.outputs with
  | none =>
    simp only [qualifiesB, hf] at h
    exact Bool.noConfusion h
  | some p =>
    rcases p with ⟨i, s⟩
    simp only [qualifiesB, hf] at h
    simp only [Bool.and_eq_true] at h
    obtain ⟨⟨⟨hany, hnm⟩, hfil⟩, hd⟩ := h
    refine ⟨i, s, rfl, ?_, hany, of_decide_eq_true hd, ?_⟩
    · cases hs : Script.scriptName s with
      | none =>
        simp only [hs] at hnm
        exact Bool.noConfusion hnm
      | some mm =>
        simp only [hs] at hnm
        rw [of_decide_eq_true hnm]
    · cases hfo : filt with
      | none => exact Or.inl rfl
      | some f =>
        simp only [hfo] at hfil
        have hfn : f = n := by simpa [filterSkips] using hfil
        exact Or.inr (by rw [hfn])

/-- A wallet transaction qualifies for at most one name: the one its
first name output carries. -/
theorem qualifiesB_unique (filt : Option Name) (n n2 : Name) (w : WalletTx)
    (h1 : qualifiesB filt n w = true) (h2 : qualifiesB filt n2 w = true) :
    n = n2 := by
  obtain ⟨i, s, hf, hn, _, _, _⟩ := qualifiesB_firstName _ _ _ h1
  obtain ⟨i2, s2, hf2, hn2, _, _, _⟩ := qualifiesB_firstName _ _ _ h2
  rw [hf] at hf2
  cases Option.some.inj hf2
  rw [hn] at hn2
  exact Option.some.inj hn2

/-- Extending the processed prefix by a transaction qualifying for no name
preserves the `name_list` invariant with an unchanged result map. -/
theorem nameListInv_extend_no (tip : Int) (filt : Option Name)
    (processed : List WalletTx) (acc : List (Name × NameListRow))
    (w : WalletTx) (hInv : nameListInv tip filt processed acc)
    (hnq : ∀ n, qualifiesB filt n w = false) :
    nameListInv tip filt (processed ++ [w]) acc := by
  obtain ⟨h1, h5, h2, h3, h4⟩ := hInv
  refine ⟨h1, h5, ?_, ?_, ?_⟩
  · intro p hp
    obtain ⟨w2, hw2, rest⟩ := h2 p hp
    exact ⟨w2, List.mem_append_left _ hw2, rest⟩
  · intro p hp w2 hw2 hq
    rcases List.mem_append.mp hw2 with hml | hmr
    · exact h3 p hp w2 hml hq
    · rw [List.mem_singleton] at hmr
      subst hmr
      rw [hnq p.1] at hq
      exact Bool.noConfusion hq
  · intro w2 hw2 n hq
    rcases List.mem_append.mp hw2 with hml | hmr
    · exact h4 w2 hml n hq
    · rw [List.mem_singleton] at hmr
      subst hmr
      rw [hnq n] at hq
      exact Bool.noConfusion hq

/-- Extending the processed prefix by a qualifying transaction whose name
already holds a row of at least its height preserves the invariant with
an unchanged result map. -/
theorem nameListInv_extend_skip (tip : Int) (filt : Option Name)
    (processed : List WalletTx) (acc : List (Name × NameListRow))
    (w : WalletTx) (n0 : Name) (r0 : NameListRow)
    (hInv : nameListInv tip filt processed acc)
    (hl : lookupRow acc n0 = some r0)
    (hq0 : ∀ n, qualifiesB filt n w = true → n = n0)
    (hle : tip - w.depth + 1 ≤ r0.height) :
    nameListInv tip filt (processed ++ [w]) acc := by
  obtain ⟨h1, h5, h2, h3, h4⟩ := hInv
  refine ⟨h1, h5, ?_, ?_, ?_⟩
  · intro p hp
    obtain ⟨w2, hw2, rest⟩ := h2 p hp
    exact ⟨w2, List.mem_append_left _ hw2, rest⟩
  · intro p hp w2 hw2 hq
    rcases List.mem_append.mp hw2 with hml | hmr
    · exact h3 p hp w2 hml hq
    · rw [List.mem_singleton] at hmr
      subst hmr
      have hpn : p.1 = n0 := hq0 p.1 hq
      have hpr : p.2 = r0 := by
        have h55 := h5 p hp
        rw [hpn, hl] at h55
        exact (Option.some.inj h55).symm
      rw [hpr]
      exact hle
  · intro w2 hw2 n hq
    rcases List.mem_append.mp hw2 with hml | hmr
    · exact h4 w2 hml n hq
    · rw [List.mem_singleton] at hmr
      subst hmr
      rw [hq0 n hq]
      exact ⟨r0, hl⟩

/-- Extending the processed prefix by a qualifying transaction that
overwrites (or creates) its name's row preserves the invariant. -/
theorem nameListInv_extend_insert (tip : Int) (filt : Option Name)
    (processed : List WalletTx) (acc : List (Name × NameListRow))
    (w : WalletTx) (n0 : Name) (v0 : Value) (i0 : Nat) (s0 : Script)
    (hInv : nameListInv tip filt processed acc)
    (hfn : firstNameOut w.outputs = some (i0, s0))
    (hname : Script.scriptName s0 = some n0)
    (hval : Script.scriptValue s0 = some v0)
    (hq : qualifiesB filt n0 w = true)
    (hq0 : ∀ n, qualifiesB filt n w = true → n = n0)
    (hmax : ∀ r0, lookupRow acc n0 = some r0 →
      r0.height ≤ tip - w.depth + 1) :
    nameListInv tip filt (processed ++ [w])
      (rowInsert acc n0 ⟨n0, v0, ⟨w.wtxid, i0⟩, tip - w.depth + 1⟩) := by
  obtain ⟨h1, h5, h2, h3, h4⟩ := hInv
  have hmem : ∀ p : Name × NameListRow,
      p ∈ rowInsert acc n0 ⟨n0, v0, ⟨w.wtxid, i0⟩, tip - w.depth + 1⟩ →
      p = (n0, ⟨n0, v0, ⟨w.wtxid, i0⟩, tip - w.depth + 1⟩) ∨
      (p ∈ acc ∧ ¬(p.1 = n0)) := by
    intro p hp
    rcases List.mem_cons.mp hp with h | h
    · exact Or.inl h
    · have hf := List.mem_filter.mp h
      exact Or.inr ⟨hf.1, by simpa using hf.2⟩
  refine ⟨?_, ?_, ?_, ?_, ?_⟩
  · rw [rowInsert, List.map_cons, List.nodup_cons]
    constructor
    · intro hk
      obtain ⟨p, hp, hpk⟩ := List.mem_map.mp hk
      have hf := (List.mem_filter.mp hp).2
      simp only [hpk] at hf
      simp at hf
    · have hsub : (acc.filter (fun p => !(decide (p.1 = n0)))).Sublist acc :=
        List.filter_sublist acc
      exact (hsub.map Prod.fst).nodup h1
  · intro p hp
    rcases hmem p hp with rfl | ⟨hpa, hpn⟩
    · rw [lookupRow_rowInsert, if_pos rfl]
    · rw [lookupRow_rowInsert, if_neg hpn]
      exact h5 p hpa
  · intro p hp
    rcases hmem p hp with rfl | ⟨hpa, hpn⟩
    · exact ⟨w, List.mem_append_right _ (List.mem_singleton_self _), hq,
        i0, s0, hfn, hname, hval, rfl, rfl, rfl⟩
    · obtain ⟨w2, hw2, rest⟩ := h2 p hpa
      exact ⟨w2, List.mem_append_left _ hw2, rest⟩
  · intro p hp w2 hw2 hq2
    rcases hmem p hp with rfl | ⟨hpa, hpn⟩
    · rcases List.mem_append.mp hw2 with hml | hmr
      · obtain ⟨r1, hr1⟩ := h4 w2 hml _ hq2
        exact le_trans
          (h3 (n0, r1) (lookupRow_mem acc n0 r1 hr1) w2 hml hq2)
          (hmax r1 hr1)
      · rw [List.mem_singleton] at hmr
        subst hmr
        exact le_refl _
    · rcases List.mem_append.mp hw2 with hml | hmr
      · exact h3 p hpa w2 hml hq2
      · rw [List.mem_singleton] at hmr
        subst hmr
        exact absurd (hq0 p.1 hq2) hpn
  · intro w2 hw2 n hq2
    rcases List.mem_append.mp hw2 with hml | hmr
    · obtain ⟨r, hr⟩ := h4 w2 hml n hq2
      by_cases hn : n = n0
      · subst hn
        exact ⟨_, by rw [lookupRow_rowInsert, if_pos rfl]⟩
      · exact ⟨r, by rw [lookupRow_rowInsert, if_neg hn]; exact hr⟩
    · rw [List.mem_singleton] at hmr
      subst hmr
      rw [hq0 n hq2]
      exact ⟨_, by rw [lookupRow_rowInsert, if_pos rfl]⟩

/-- One `name_list` loop iteration on a transaction whose first name
output carries name `n0` and value `v0` preserves the invariant. -/
theorem nameListInv_step_named (tip : Int) (filt : Option Name)
    (processed : List WalletTx) (acc : List (Name × NameListRow))
    (w : WalletTx) (i0 : Nat) (s0 : Script) (n0 : Name) (v0 : Value)
    (hInv : nameListInv tip filt processed acc)
    (hf : firstNameOut w.outputs = some (i0, s0))
    (hsn : Script.scriptName s0 = some n0)
    (hsv : Script.scriptValue s0 = some v0)
    (hsu : Script.isAnyUpdate s0 = true) :
    nameListInv tip filt (processed ++ [w])
      (nameListStep tip filt acc w) := by
  have hq0 : ∀ n, qualifiesB filt n w = true → n = n0 := by
    intro n hqn
    obtain ⟨i, s, hf2, hn2, _, _, _⟩ := qualifiesB_firstName _ _ _ hqn
    rw [hf] at hf2
    cases Option.some.inj hf2
    rw [hsn] at hn2
    exact (Option.some.inj hn2).symm
  cases hfil : filterSkips filt n0 with
  | true =>
    have hstep : nameListStep tip filt acc w = acc := by
      simp [nameListStep, hf, hsu, hsn, hsv, hfil]
    rw [hstep]
    apply nameListInv_extend_no tip filt processed acc w hInv
    intro n
    apply bool_eq_false_of_imp
    intro hqn
    have hn := hq0 n hqn
    subst hn
    obtain ⟨i, s, hf2, hn2, _, _, hdisj⟩ := qualifiesB_firstName _ _ _ hqn
    rcases hdisj with hd | hd
    · rw [hd] at hfil
      simp [filterSkips] at hfil
    · rw [hd] at hfil
      simp [filterSkips] at hfil
  | false =>
    by_cases hdep : w.depth ≤ 0
    · have hstep : nameListStep tip filt acc w = acc := by
        simp [nameListStep, hf, hsu, hsn, hsv, hfil, hdep]
      rw [hstep]
      apply nameListInv_extend_no tip filt processed acc w hInv
      intro n
      apply bool_eq_false_of_imp
      intro hqn
      obtain ⟨i, s, hf2, _, _, hdp, _⟩ := qualifiesB_firstName _ _ _ hqn
      omega
    · have hdp : 0 < w.depth := by omega
      have hq : qualifiesB filt n0 w = true := by
        simp [qualifiesB, hf, hsu, hsn, hfil, hdp]
      cases hlk : lookupRow acc n0 with
      | none =>
        have hstep : nameListStep tip filt acc w =
            rowInsert acc n0 ⟨n0, v0, ⟨w.wtxid, i0⟩,
              tip - w.depth + 1⟩ := by
          simp [nameListStep, hf, hsu, hsn, hsv, hfil, hdep, hlk]
        rw [hstep]
        exact nameListInv_extend_insert tip filt processed acc w n0 v0 i0 s0
          hInv hf hsn hsv hq hq0
          (fun r0 hr0 => by rw [hlk] at hr0; cases hr0)
      | some r0 =>
        by_cases hgt : r0.height > tip - w.depth + 1
        · have hstep : nameListStep tip filt acc w = acc := by
            simp [nameListStep, hf, hsu, hsn, hsv, hfil, hdep, hlk, hgt]
          rw [hstep]
          exact nameListInv_extend_skip tip filt processed acc w n0 r0 hInv
            hlk hq0 (by omega)
        · have hstep : nameListStep tip filt acc w =
              rowInsert acc n0 ⟨n0, v0, ⟨w.wtxid, i0⟩,
                tip - w.depth + 1⟩ := by
            simp [nameListStep, hf, hsu, hsn, hsv, hfil, hdep, hlk, hgt]
          rw [hstep]
          exact nameListInv_extend_insert tip filt processed acc w n0 v0 i0
            s0 hInv hf hsn hsv hq hq0
            (fun r1 hr1 => by
              rw [hlk] at hr1
              cases Option.some.inj hr1
              omega)

/-- One `name_list` loop iteration preserves the invariant. -/
theorem nameListInv_step (tip : Int) (filt : Option Name)
    (processed : List WalletTx) (acc : List (Name × NameListRow))
    (w : WalletTx) (hInv : nameListInv tip filt processed acc) :
    nameListInv tip filt (processed ++ [w])
      (nameListStep tip filt acc w) := by
  cases hf : firstNameOut w.outputs with
  | none =>
    have hstep : nameListStep tip filt acc w = acc := by
      simp [nameListStep, hf]
    rw [hstep]
    apply nameListInv_extend_no tip filt processed acc w hInv
    intro n
    simp [qualifiesB, hf]
  | some p =>
    rcases p with ⟨i0, s0⟩
    cases s0 with
    | plain =>
      have hstep : nameListStep tip filt acc w = acc := by
        simp [nameListStep, hf, Script.isAnyUpdate]
      rw [hstep]
      apply nameListInv_extend_no tip filt processed acc w hInv
      intro n
      apply bool_eq_false_of_imp
      intro hqn
      obtain ⟨i, s, hf2, hn2, _, _, _⟩ := qualifiesB_firstName _ _ _ hqn
      rw [hf] at hf2
      cases Option.some.inj hf2
      simp [Script.scriptName] at hn2
    | nameRegisterScript n0 v0 =>
      exact nameListInv_step_named tip filt processed acc w i0 _ n0 v0 hInv
        hf rfl rfl rfl
    | nameUpdateScript n0 v0 =>
      exact nameListInv_step_named tip filt processed acc w i0 _ n0 v0 hInv
        hf rfl rfl rfl

/-- Folding the `name_list` loop over a suffix of wallet transactions
preserves the invariant. -/
theorem nameListInv_foldl (tip : Int) (filt : Option Name) :
    ∀ (wtxs processed : List WalletTx) (acc : List (Name × NameListRow)),
      nameListInv tip filt processed acc →
      nameListInv tip filt (processed ++ wtxs)
        (wtxs.foldl (nameListStep tip filt) acc) := by
  intro wtxs
  induction wtxs with
  | nil => intro processed acc h; simpa using h
  | cons w rest ih =>
    intro processed acc h
    have hnext := ih (processed ++ [w]) (nameListStep tip filt acc w)
      (nameListInv_step tip filt processed acc w h)
    simpa [List.append_assoc] using hnext

/-- The invariant holds initially. -/
theorem nameListInv_nil (tip : Int) (filt : Option Name) :
    nameListInv tip filt [] [] := by
  refine ⟨List.nodup_nil, ?_, ?_, ?_, ?_⟩
  · intro p hp; cases hp
  · intro p hp; cases hp
  · intro p hp; cases hp
  · intro w hw; cases hw

/-- C10.  The `name_list` RPC returns at most one entry per name (distinct
keys); every reported row comes from a qualifying wallet transaction —
positive confirmation depth, filter pass, data taken from the
transaction's first name output only; the reported height dominates every
qualifying wallet transaction of that name (it is the greatest confirmed
height); and every name with a qualifying transaction is reported. -/
theorem nameListRpc_spec :
    ∀ (tip : Int) (filt : Option Name) (wtxs : List WalletTx),
      ((nameListRpc tip filt wtxs).map Prod.fst).Nodup ∧
      (∀ p ∈ nameListRpc tip filt wtxs,
          ∃ w ∈ wtxs, qualifiesB filt p.1 w = true ∧
            ∃ i s, firstNameOut w.outputs = some (i, s) ∧
              Script.scriptName s = some p.1 ∧
              Script.scriptValue s = some p.2.value ∧
              p.2.name = p.1 ∧ p.2.outp = ⟨w.wtxid, i⟩ ∧
              p.2.height = tip - w.depth + 1) ∧
      (∀ p ∈ nameListRpc tip filt wtxs, ∀ w ∈ wtxs,
          qualifiesB filt p.1 w = true → tip - w.depth + 1 ≤ p.2.height) ∧
      (∀ w ∈ wtxs, ∀ n, qualifiesB filt n w = true →
          ∃ r, lookupRow (nameListRpc tip filt wtxs) n = some r) := by
  intro tip filt wtxs
  have h := nameListInv_foldl tip filt wtxs [] [] (nameListInv_nil tip filt)
  obtain ⟨h1, h5, h2, h3, h4⟩ := h
  exact ⟨h1, h2, h3, h4⟩

/-- Witness for C10: with two confirmed updates of name `[1]` in the
wallet, the name is reported, and the reported height dominates the
qualifying earlier update. -/
theorem nameListRpc_spec_witness :
    ∃ r, lookupRow (nameListRpc 10 Option.none [wA, wB]) [1] = some r :=
  (nameListRpc_spec 10 Option.none [wA, wB]).2.2.2 wA (by decide) [1]
    (by decide)

end Xaya
